import Mathlib

/-
  Verification of the DataLog storage engine (Log.cpp / Log.h) and the
  DataLogReader stream against its specification.

  The embedding models the flash partition as a byte map `Nat → Nat`
  (little-endian words, erased bytes read 0xFF), and the Log engine state
  as the record of RAM members of class `Log`.  Machine integers are
  modelled as `Nat` with explicit `% 2^16` / `% 2^32` at the points where
  the C++ code performs truncating assignments or unsigned wrap-around
  (`uint16_t` members and casts, `uint32_t` arithmetic).  The non-testing
  configuration is modelled (PAGES_PER_BLOCK = 4, no MAX_TOTAL_BLOCKS
  clamp).
-/

set_option linter.unusedVariables false

namespace DataLog

/-- Round `n` up to the next multiple of four — the ALIGNUP4 macro used by Log.cpp. -/
def alignup4 (n : Nat) : Nat := (n + 3) / 4 * 4

theorem alignup4_le (n : Nat) : n ≤ alignup4 n := by unfold alignup4; omega

theorem alignup4_lt (n : Nat) : alignup4 n < n + 4 := by unfold alignup4; omega

theorem alignup4_mod4 (n : Nat) : alignup4 n % 4 = 0 := by unfold alignup4; omega

theorem alignup4_of_mod4 {n : Nat} (h : n % 4 = 0) : alignup4 n = n := by
  unfold alignup4; omega

theorem alignup4_add4 (n : Nat) : alignup4 (4 + n) = 4 + alignup4 n := by
  unfold alignup4; omega

theorem four_le_alignup4_add (n : Nat) : 4 ≤ alignup4 (4 + n) := by
  unfold alignup4; omega

theorem alignup4_le_of_le {a b : Nat} (hab : a ≤ b) (hb : b % 4 = 0) :
    alignup4 a ≤ b := by unfold alignup4; omega

/-- Flash contents: the byte stored at each absolute partition offset. -/
def Flash : Type := Nat → Nat

/-- Fully erased flash: every byte reads 0xFF. -/
def erasedFlash : Flash := fun _ => 255

/-- Partition adapter `write`: store a list of bytes starting at `off`. -/
def writeBytes (f : Flash) (off : Nat) (bytes : List Nat) : Flash :=
  fun a => if off ≤ a ∧ a < off + bytes.length then bytes.getD (a - off) 0 else f a

/-- Partition adapter `erase_range`: the range reads 0xFF afterwards. -/
def eraseRange (f : Flash) (off len : Nat) : Flash :=
  fun a => if off ≤ a ∧ a < off + len then 255 else f a

/-- Little-endian 16-bit read. -/
def read16 (f : Flash) (o : Nat) : Nat := f o + 256 * f (o + 1)

/-- Little-endian 32-bit read. -/
def read32 (f : Flash) (o : Nat) : Nat :=
  f o + 256 * f (o + 1) + 65536 * f (o + 2) + 16777216 * f (o + 3)

/-- Entry::Header — `size : u16`, `kind : u8`, `flags : u8`; exactly one word. -/
structure Header where
  size : Nat
  kind : Nat
  flags : Nat
deriving Repr, DecidableEq

/-- Parse a header from four flash bytes at offset `o` (little-endian). -/
def readHeader (f : Flash) (o : Nat) : Header :=
  ⟨read16 f o, f (o + 2), f (o + 3)⟩

/-- Byte image of a header, as written by `partition.write(off, &header, 4)`. -/
def headerBytes (size kind flags : Nat) : List Nat :=
  [size % 256, size / 256 % 256, kind % 256, flags % 256]

/-- Little-endian byte image of a 32-bit word. -/
def le32 (n : Nat) : List Nat :=
  [n % 256, n / 256 % 256, n / 65536 % 256, n / 16777216 % 256]

/-- Block record magic value (Log.cpp). -/
def magic : Nat := 0xA78BE044

/-- Byte image of a `BlockStart` record: header `{size = 8, kind = block, flags = 0xFF}`
followed by `Entry::Block {magic, sequence}`. -/
def blockStartBytes (seq : Nat) : List Nat := headerBytes 8 1 255 ++ le32 magic ++ le32 seq

/-- Log::BlockInfo — block slot number and 32-bit sequence number. -/
structure BlockInfo where
  number : Nat
  sequence : Nat
deriving Repr, DecidableEq

/-- Log::State. -/
inductive LState where
  | uninitialised
  | ready
  | busy
deriving Repr, DecidableEq

/-- RAM state of class `Log` together with the partition contents it writes to. -/
structure Log where
  flash : Flash
  startBlock : BlockInfo
  endBlock : BlockInfo
  writeOffset : Nat
  blockSize : Nat
  totalBlocks : Nat
  st : LState

/-- Storage::Partition as seen through the adapter contract: contents, the
underlying flash page size (`getBlockSize()`), total byte size (`size()`) and
validity (`operator bool`). -/
structure Partition where
  flash : Flash
  pageSize : Nat
  psize : Nat
  valid : Bool

/-- A Log object before `init`: members value-initialised, state `uninitialised`. -/
def freshLog : Log :=
  { flash := erasedFlash, startBlock := ⟨0, 0⟩, endBlock := ⟨0, 0⟩, writeOffset := 0,
    blockSize := 0, totalBlocks := 0, st := LState.uninitialised }

/-- Sequence number recorded for a block during the init scan: the first twelve
bytes of the block must parse as a valid `BlockStart` (`header.size == sizeof(block)`,
`header.kind == Entry::Kind::block`, matching magic); otherwise zero. -/
def seqAt (f : Flash) (bs b : Nat) : Nat :=
  if (readHeader f (b * bs)).size = 8 ∧ (readHeader f (b * bs)).kind = 1 ∧
      read32 f (b * bs + 4) = magic
  then read32 f (b * bs + 8) else 0

/-- The `Find maximum block sequence` loop of Log::init: scan slots `0 .. tb-1`,
keeping the first slot whose sequence strictly exceeds the best so far. -/
def scanMax (seqs : Nat → Nat) (tb : Nat) : BlockInfo :=
  (List.range tb).foldl (fun acc b => if acc.sequence < seqs b then ⟨b, seqs b⟩ else acc) ⟨0, 0⟩

/-- The `Scan backwards to find start point` do-while loop of Log::init,
written as structural recursion on a fuel argument (the loop decrements the
sequence by exactly one per iteration, so a fuel equal to the starting
sequence is exact).  Starting from the end block it repeatedly records the
current block as `startBlock`, stops when the sequence reaches 1, otherwise
steps to the ring-predecessor slot with the predecessor sequence and
continues while the recorded sequence of that slot equals the expected one.
`init` only calls this with `sequence ≥ 1`, and every recursive call keeps
`sequence ≥ 1`, so the u32 wrap of decrementing sequence 0 is unreachable
and folded into the `≤ 1` base case. -/
def walkBackAux (seqs : Nat → Nat) (tb : Nat) : Nat → BlockInfo → BlockInfo
  | 0, block => block
  | fuel + 1, block =>
    if block.sequence ≤ 1 then block
    else
      let pn := if block.number = 0 then tb - 1 else block.number - 1
      if seqs pn = block.sequence - 1 then walkBackAux seqs tb fuel ⟨pn, block.sequence - 1⟩
      else block

/-- Backwards scan entry point: the loop runs at most `block.sequence` steps. -/
def walkBack (seqs : Nat → Nat) (tb : Nat) (block : BlockInfo) : BlockInfo :=
  walkBackAux seqs tb block.sequence block

/-- The `Scan end block for write position` do-while loop of Log::init, as
structural recursion on a fuel argument (each iteration advances the offset
by at least four bytes, so `endOffset - off` steps are more than enough):
read a header, stop on kind `erased`, otherwise advance by the aligned entry
size and continue while still before `endOffset`. -/
def scanBlockAux (f : Flash) (endOffset : Nat) : Nat → Nat → Nat
  | 0, off => off
  | fuel + 1, off =>
    let h := readHeader f off
    if h.kind = 255 then off
    else
      let off2 := off + alignup4 (4 + h.size)
      if off2 < endOffset then scanBlockAux f endOffset fuel off2 else off2

/-- End-block scan entry point. -/
def scanBlock (f : Flash) (endOffset off : Nat) : Nat :=
  scanBlockAux f endOffset (endOffset - off) off

/-- Log::init — computes `blockSize = getBlockSize() * PAGES_PER_BLOCK` (truncated
to the `uint16_t` member) and `totalBlocks = size() / blockSize` (likewise
truncated), reads all block sequence numbers, picks the maximum as `endBlock`,
scans backwards for `startBlock` and scans the end block for the write position,
clamping an overflowed scan to the block end. -/
def Log.init (s : Log) (p : Partition) : Bool × Log :=
  if p.valid = false then (false, s)
  else
    let bs := p.pageSize * 4 % 65536
    let s1 : Log := { s with flash := p.flash, blockSize := bs }
    if bs = 0 then (false, s1)
    else
      let tb := p.psize / bs % 65536
      let seqs : Nat → Nat := fun b => seqAt p.flash bs b
      let eb := scanMax seqs tb
      if eb.sequence = 0 then
        (true, { s1 with totalBlocks := tb, endBlock := eb, startBlock := eb,
                         writeOffset := 0, st := LState.ready })
      else
        let sb := walkBack seqs tb eb
        let endOffset := eb.number * bs + bs
        let off0 := scanBlock p.flash endOffset (eb.number * bs)
        let off1 := if endOffset < off0 then endOffset else off0
        (true, { s1 with totalBlocks := tb, endBlock := eb, startBlock := sb,
                         writeOffset := off1, st := LState.ready })

/-- Crash-recovery hook at the top of Log::writeEntry: if the state is `busy`,
either the write offset is at a block start (nothing to do) or the offset is
reduced into the ring and advanced past a torn entry if its header is no
longer erased. -/
def busyFix (s : Log) : Log :=
  if s.st = LState.busy then
    if s.writeOffset % s.blockSize = 0 then s
    else
      let off := s.writeOffset % (s.blockSize * s.totalBlocks)
      let h := readHeader s.flash off
      if h.kind = 255 then { s with writeOffset := off }
      else { s with writeOffset := off + 4 + alignup4 h.size }
  else s

/-- Pad step of Log::writeEntry: if the free space in the current block is less
than the entry size, emit a fully committed `pad` header whose size is
`space - sizeof(header)` (u32 subtraction then `uint16_t` cast) and advance
`writeOffset` by `space`. -/
def stepPad (s : Log) (entrySize : Nat) : Log × List (Nat × List Nat) :=
  let space := s.blockSize - s.writeOffset % s.blockSize
  if space < entrySize then
    let pb := headerBytes ((space + 4294967296 - 4) % 4294967296) 0 0
    ({ s with flash := writeBytes s.flash s.writeOffset pb,
              writeOffset := s.writeOffset + space },
     [(s.writeOffset, pb)])
  else (s, [])

/-- Block-wrap step of Log::writeEntry: when `writeOffset` is at a block
boundary, reduce it modulo the ring size, advance `endBlock`, retire the
oldest block when the new end block lands on `startBlock.number` and
`startBlock.sequence` is non-zero, erase the block and write its
`BlockStart` record. -/
def stepWrap (s : Log) : Log × List (Nat × List Nat) :=
  if s.writeOffset % s.blockSize = 0 then
    let off := s.writeOffset % (s.blockSize * s.totalBlocks)
    let ebn := off / s.blockSize
    let eseq := (s.endBlock.sequence + 1) % 4294967296
    let sb :=
      if ebn = s.startBlock.number ∧ s.startBlock.sequence ≠ 0 then
        BlockInfo.mk ((s.startBlock.number + 1) % s.totalBlocks)
                     ((s.startBlock.sequence + 1) % 4294967296)
      else s.startBlock
    let bb := blockStartBytes eseq
    ({ s with flash := writeBytes (eraseRange s.flash off s.blockSize) off bb,
              startBlock := sb, endBlock := ⟨ebn, eseq⟩, writeOffset := off + 12 },
     [(off, bb)])
  else (s, [])

/-- Flash effect of the commit phase of Log::writeEntry: write the header with
the invalid flag set (`flags = 0xFF`), the info bytes, the data bytes when
non-empty, then rewrite the header with the invalid bit cleared
(`flags = 0xFE`).  The stored header size is `uint16_t(infoLength + dataLength)`. -/
def commitFlash (f : Flash) (off kind : Nat) (info data : List Nat) : Flash :=
  let hsize := (info.length + data.length) % 65536
  let f1 := writeBytes f off (headerBytes hsize kind 255)
  let f2 := writeBytes f1 (off + 4) info
  let f3 := if data.length ≠ 0 then writeBytes f2 (off + 4 + info.length) data else f2
  writeBytes f3 off (headerBytes hsize kind 254)

/-- Trace of `partition.write` calls issued by the commit phase. -/
def commitTrace (off kind : Nat) (info data : List Nat) : List (Nat × List Nat) :=
  let hsize := (info.length + data.length) % 65536
  (off, headerBytes hsize kind 255) :: (off + 4, info) ::
    ((if data.length ≠ 0 then [(off + 4 + info.length, data)] else []) ++
      [(off, headerBytes hsize kind 254)])

/-- Commit step of Log::writeEntry: perform the three-phase entry write and
advance `writeOffset` by `sizeof(header) + ALIGNUP4(header.size)`. -/
def stepCommit (s : Log) (kind : Nat) (info data : List Nat) : Log × List (Nat × List Nat) :=
  ({ s with flash := commitFlash s.flash s.writeOffset kind info data,
            writeOffset := s.writeOffset + 4 + alignup4 ((info.length + data.length) % 65536),
            st := LState.ready },
   commitTrace s.writeOffset kind info data)

/-- Result of Log::writeEntry: success flag, the updated engine state, and the
trace of `partition.write` calls issued (offset and bytes of each call). -/
structure WriteResult where
  ok : Bool
  log : Log
  trace : List (Nat × List Nat)

/-- Log::writeEntry — refuses when uninitialised, runs the crash-recovery hook,
pads, wraps and commits the entry, ending in state `ready`. -/
def Log.writeEntry (s : Log) (kind : Nat) (info data : List Nat) : WriteResult :=
  if s.st = LState.uninitialised then ⟨false, s, []⟩
  else
    let s0 := busyFix s
    let p1 := stepPad s0 (4 + info.length + data.length)
    let p2 := stepWrap p1.1
    let p3 := stepCommit p2.1 kind info data
    ⟨true, p3.1, p1.2 ++ p2.2 ++ p3.2⟩

/-- Result of Log::read: the returned signed byte count and the trace of
`partition.read` calls issued (offset and length of each call). -/
structure ReadResult where
  result : Int
  reads : List (Nat × Nat)
deriving Repr, DecidableEq

/-- Log::read — maps `(block, offset)` through the circular ring into an
absolute partition offset (u32 arithmetic) and issues one or two reads.
Returns -1 when the engine is not ready or the requested sequence is past
`endBlock.sequence`. -/
def Log.read (s : Log) (block offset bufSize : Nat) : ReadResult :=
  if ¬ s.st = LState.ready then ⟨-1, []⟩
  else if s.endBlock.sequence < block then ⟨-1, []⟩
  else
    let totalSize := s.totalBlocks * s.blockSize
    let ro0 := ((s.startBlock.number + block + 4294967296 - s.startBlock.sequence) % 4294967296
                  * s.blockSize % 4294967296 + offset) % 4294967296
    let ro1 := if totalSize ≤ ro0 then ro0 - totalSize else ro0
    if s.writeOffset < ro1 then
      let len1 := min bufSize ((totalSize + 4294967296 - ro1) % 4294967296)
      let len2 := min (bufSize - len1) s.writeOffset
      ⟨Int.ofNat (len1 + len2),
       (ro1, len1) :: (if len2 ≠ 0 then [(0, len2)] else [])⟩
    else
      let len := min bufSize (s.writeOffset - ro1)
      ⟨Int.ofNat len, if len ≠ 0 then [(ro1, len)] else []⟩

/-- Log::isReady. -/
def Log.isReady (s : Log) : Bool := s.st = LState.ready

/-- Log::getStartBlock — returns the 32-bit sequence truncated to `uint16_t`. -/
def Log.getStartBlock (s : Log) : Nat := s.startBlock.sequence % 65536

/-- Log::getEndBlock — returns the 32-bit sequence truncated to `uint16_t`. -/
def Log.getEndBlock (s : Log) : Nat := s.endBlock.sequence % 65536

/-- Log::getFullBlockCount — u32 subtraction of the sequences, truncated to
`uint16_t`. -/
def Log.getFullBlockCount (s : Log) : Nat :=
  (s.endBlock.sequence + 4294967296 - s.startBlock.sequence) % 4294967296 % 65536

/-- One writeEntry request: entry kind plus info and data buffers. -/
structure Req where
  kind : Nat
  info : List Nat
  data : List Nat

/-- Run a sequence of writeEntry calls, threading the engine state. -/
def runWrites (s : Log) (reqs : List Req) : Log :=
  reqs.foldl (fun s r => (Log.writeEntry s r.kind r.info r.data).log) s

/-- SeekOrigin of the stream interface. -/
inductive SeekOrigin where
  | Start
  | Current
  | End
deriving Repr, DecidableEq

/-- Cursor state of a DataLogReader bound to a finite span of `size` bytes. -/
structure ReaderState where
  readPos : Nat
  size : Nat
  done : Bool
deriving Repr, DecidableEq

/-- The switch statement of DataLogReader::seekFrom: resolve the requested
offset against the origin.  `readPos` and `size` are `uint32_t` and the sum is
computed in 32-bit unsigned arithmetic (`size_t` on the 32-bit target). -/
def resolveSeek (r : ReaderState) (offset : Int) (origin : SeekOrigin) : Nat :=
  match origin with
  | SeekOrigin.Start => (offset % 4294967296).toNat
  | SeekOrigin.Current => (((r.readPos : Int) + offset) % 4294967296).toNat
  | SeekOrigin.End => (((r.size : Int) + offset) % 4294967296).toNat

/-- DataLogReader::seekFrom — resolves the new position against the origin,
returns -1 when it lies past `size`, otherwise repositions the cursor (marking
the stream done at exactly `size`) and returns the new position. -/
def seekFrom (r : ReaderState) (offset : Int) (origin : SeekOrigin) : ReaderState × Int :=
  let newPos := resolveSeek r offset origin
  if r.size < newPos then (r, -1)
  else ({ r with readPos := newPos, done := if newPos = r.size then true else r.done },
        Int.ofNat newPos)

/-- Spec-side ring-modular predecessor iteration: step the block number
backwards `j` times, wrapping from 0 to `tb - 1`.  Used to characterise the
backwards scan of Log::init. -/
def ringSub (tb : Nat) : Nat → Nat → Nat
  | n, 0 => n
  | n, j + 1 => ringSub tb (if n = 0 then tb - 1 else n - 1) j

/-- A contiguous run of committed entries on flash: starting at offset `o`,
each position holds a header whose kind is not `erased`, and the next entry
starts at the 4-byte-aligned end of the previous one, ending exactly at `t`. -/
inductive Chain (f : Flash) : Nat → Nat → Prop
  | nil (o : Nat) : Chain f o o
  | cons (o t : Nat) (hk : ¬ (readHeader f o).kind = 255)
      (htail : Chain f (o + alignup4 (4 + (readHeader f o).size)) t) : Chain f o t

/-- A writeEntry request the engine handles without straddling blocks: the
entry (header, info, data, plus the 12-byte block record of a fresh block)
fits inside one block, and its kind is not the reserved `erased` tag. -/
def WellSized (bs : Nat) (r : Req) : Prop :=
  r.info.length + r.data.length + 16 ≤ bs ∧ ¬ r.kind % 256 = 255

instance (bs : Nat) (r : Req) : Decidable (WellSized bs r) :=
  inferInstanceAs (Decidable (r.info.length + r.data.length + 16 ≤ bs ∧ ¬ r.kind % 256 = 255))

/-- Invariant of a non-empty log reachable from an erased partition after at
most `n` writes: the end block is in range with the strictly maximal block
sequence, the write offset sits inside the end block past its block record,
and the end block parses as a chain of committed entries followed by erased
bytes. -/
def ActiveInv (bs tb n : Nat) (s : Log) : Prop :=
  1 ≤ s.endBlock.sequence ∧ s.endBlock.sequence ≤ n ∧ s.endBlock.number < tb ∧
  s.endBlock.number * bs + 12 ≤ s.writeOffset ∧
  s.writeOffset ≤ s.endBlock.number * bs + bs ∧
  s.writeOffset % 4 = 0 ∧
  seqAt s.flash bs s.endBlock.number = s.endBlock.sequence ∧
  (∀ b, b < tb → ¬ b = s.endBlock.number → seqAt s.flash bs b < s.endBlock.sequence) ∧
  Chain s.flash (s.endBlock.number * bs) s.writeOffset ∧
  (∀ a, s.writeOffset ≤ a → a < s.endBlock.number * bs + bs → s.flash a = 255)

/-- Invariant of a still-empty log: nothing written, flash fully erased. -/
def EmptyInv (s : Log) : Prop :=
  s.endBlock = ⟨0, 0⟩ ∧ s.startBlock = ⟨0, 0⟩ ∧ s.writeOffset = 0 ∧ ∀ a, s.flash a = 255

/-- Combined state invariant for runs from an erased partition. -/
def Inv (bs tb n : Nat) (s : Log) : Prop :=
  s.st = LState.ready ∧ s.blockSize = bs ∧ s.totalBlocks = tb ∧
  (EmptyInv s ∨ ActiveInv bs tb n s)

/-- Ring-consistency invariant relating `startBlock` and `endBlock` in a
session whose start block carries a real (non-zero) sequence: the span from
start to end is at most `totalBlocks` and the end block number is the ring
offset of the start block number by the sequence difference. -/
def RingInv (bs tb : Nat) (s : Log) : Prop :=
  s.st = LState.ready ∧ s.blockSize = bs ∧ s.totalBlocks = tb ∧
  1 ≤ s.startBlock.sequence ∧ s.startBlock.sequence ≤ s.endBlock.sequence ∧
  s.startBlock.number < tb ∧ s.endBlock.number < tb ∧
  s.endBlock.number = (s.startBlock.number + (s.endBlock.sequence - s.startBlock.sequence)) % tb ∧
  s.endBlock.sequence - s.startBlock.sequence + 1 ≤ tb ∧
  s.endBlock.number * bs + 12 ≤ s.writeOffset ∧
  s.writeOffset ≤ s.endBlock.number * bs + bs ∧
  s.writeOffset % 4 = 0

/-- Example partition: flash page size 4 so `blockSize = 16`, partition size 32
so `totalBlocks = 2`, fully erased. -/
def pEx : Partition := ⟨erasedFlash, 4, 32, true⟩

/-- Engine state right after `init` on the erased example partition. -/
def sEx : Log := (Log.init freshLog pEx).2

/-- One write of an empty boot-style entry (kind 2, no payload) on the fresh log. -/
def wEx : WriteResult := Log.writeEntry sEx 2 [] []

/-- Re-initialisation of a fresh handle against the partition contents left by
the single write. -/
def reEx : Bool × Log := Log.init freshLog ⟨wEx.log.flash, 4, 32, true⟩

/-- Three empty writes from the erased partition: fills block 0, block 1, and
wraps back onto block 0. -/
def run3Ex : Log := runWrites sEx [⟨2, [], []⟩, ⟨2, [], []⟩, ⟨2, [], []⟩]

/-- Example partition with `blockSize = 32`, `totalBlocks = 2`. -/
def p32Ex : Partition := ⟨erasedFlash, 8, 64, true⟩

/-- Two writes that exactly fill block 0 of the 32-byte-block partition:
entry sizes 8 and 12 after the 12-byte block record land the write offset on
the block boundary. -/
def c2Ex : Log :=
  runWrites (Log.init freshLog p32Ex).2 [⟨6, [1, 1, 1, 1], []⟩, ⟨6, [2, 2, 2, 2, 2, 2, 2, 2], []⟩]

/-- Partition smaller than one block: `blockSize = 16` but size 8, so the
computed `totalBlocks` is zero. -/
def p0Ex : Partition := ⟨erasedFlash, 4, 8, true⟩

/-- Ready engine state with exactly four bytes free in the current block
(`writeOffset = 12`, `blockSize = 16`). -/
def c5Ex : Log :=
  { flash := erasedFlash, startBlock := ⟨0, 0⟩, endBlock := ⟨0, 1⟩, writeOffset := 12,
    blockSize := 16, totalBlocks := 2, st := LState.ready }

/-- Ready engine state satisfying the ring invariant with a non-zero start
sequence. -/
def c6Ex : Log :=
  { flash := erasedFlash, startBlock := ⟨0, 1⟩, endBlock := ⟨0, 1⟩, writeOffset := 12,
    blockSize := 16, totalBlocks := 2, st := LState.ready }

/-- An oversized write request: 20 bytes of info on a 16-byte-block engine. -/
def c8Ex : WriteResult := Log.writeEntry sEx 6 (List.replicate 20 7) []

/-- Example reader cursor bound to a 200-byte span. -/
def rdEx : ReaderState := ⟨100, 200, false⟩

/-- Engine state whose block sequences exceed 65535, exercising the `uint16_t`
truncation of the accessors. -/
def c10Ex : Log :=
  { flash := erasedFlash, startBlock := ⟨1, 70000⟩, endBlock := ⟨0, 200000⟩, writeOffset := 12,
    blockSize := 16, totalBlocks := 2, st := LState.ready }

/-- Partition holding the flash image produced by `wEx`, used to exercise the
init scan on a non-empty log. -/
def c7Ex : Partition := ⟨wEx.log.flash, 4, 32, true⟩

/- Helper lemmas about flash reads and writes. -/

theorem writeBytes_lt {f : Flash} {off : Nat} {bytes : List Nat} {a : Nat} (h : a < off) :
    writeBytes f off bytes a = f a := by
  simp only [writeBytes]
  rw [if_neg (by omega)]

theorem writeBytes_ge {f : Flash} {off : Nat} {bytes : List Nat} {a : Nat}
    (h : off + bytes.length ≤ a) : writeBytes f off bytes a = f a := by
  simp only [writeBytes]
  rw [if_neg (by omega)]

theorem writeBytes_in {f : Flash} {off : Nat} {bytes : List Nat} {a : Nat}
    (h1 : off ≤ a) (h2 : a < off + bytes.length) :
    writeBytes f off bytes a = bytes.getD (a - off) 0 := by
  simp only [writeBytes]
  rw [if_pos ⟨h1, h2⟩]

theorem eraseRange_in {f : Flash} {off len a : Nat} (h1 : off ≤ a) (h2 : a < off + len) :
    eraseRange f off len a = 255 := by
  simp only [eraseRange]
  rw [if_pos ⟨h1, h2⟩]

theorem eraseRange_out {f : Flash} {off len a : Nat} (h : a < off ∨ off + len ≤ a) :
    eraseRange f off len a = f a := by
  simp only [eraseRange]
  rw [if_neg (by omega)]

theorem writeBytes_append (f : Flash) (off : Nat) (l1 l2 : List Nat) :
    writeBytes f off (l1 ++ l2) = writeBytes (writeBytes f off l1) (off + l1.length) l2 := by
  funext a
  simp only [writeBytes, List.length_append]
  by_cases h1 : off ≤ a ∧ a < off + l1.length
  · rw [if_pos (by omega), if_neg (by omega), if_pos h1,
      List.getD_append _ _ _ _ (by omega)]
  · by_cases h2 : off + l1.length ≤ a ∧ a < off + (l1.length + l2.length)
    · rw [if_pos (by omega), if_pos (by omega),
        List.getD_append_right _ _ _ _ (by omega)]
      congr 1
      omega
    · by_cases h3 : off ≤ a ∧ a < off + (l1.length + l2.length)
      · omega
      · rw [if_neg h3, if_neg (by omega), if_neg (by omega)]

theorem read16_congr {f g : Flash} {o : Nat} (h0 : f o = g o) (h1 : f (o + 1) = g (o + 1)) :
    read16 f o = read16 g o := by
  unfold read16
  rw [h0, h1]

theorem read32_congr {f : Flash} (g : Flash) {o : Nat} (h0 : f o = g o) (h1 : f (o + 1) = g (o + 1))
    (h2 : f (o + 2) = g (o + 2)) (h3 : f (o + 3) = g (o + 3)) :
    read32 f o = read32 g o := by
  unfold read32
  rw [h0, h1, h2, h3]

theorem readHeader_congr {f : Flash} (g : Flash) {o : Nat}
    (h : ∀ a, o ≤ a → a < o + 4 → f a = g a) : readHeader f o = readHeader g o := by
  unfold readHeader
  rw [read16_congr (h o (by omega) (by omega)) (h (o + 1) (by omega) (by omega)),
    h (o + 2) (by omega) (by omega), h (o + 3) (by omega) (by omega)]

theorem seqAt_congr {f g : Flash} {bs b : Nat}
    (h : ∀ a, b * bs ≤ a → a < b * bs + 12 → f a = g a) : seqAt f bs b = seqAt g bs b := by
  unfold seqAt
  rw [readHeader_congr g (fun a ha1 ha2 => h a ha1 (by omega)),
    read32_congr g (h _ (by omega) (by omega)) (h _ (by omega) (by omega))
      (h _ (by omega) (by omega)) (h _ (by omega) (by omega)),
    read32_congr g (h _ (by omega) (by omega)) (h _ (by omega) (by omega))
      (h _ (by omega) (by omega)) (h _ (by omega) (by omega))]

theorem seqAt_of_erased {f : Flash} {bs b : Nat}
    (h : ∀ a, b * bs ≤ a → a < b * bs + 12 → f a = 255) : seqAt f bs b = 0 := by
  have hsz : (readHeader f (b * bs)).size = 65535 := by
    unfold readHeader read16
    rw [h _ (by omega) (by omega), h _ (by omega) (by omega)]
  unfold seqAt
  rw [if_neg]
  intro hc
  rw [hsz] at hc
  omega

theorem readHeader_writeBytes (f : Flash) (o sz k fl : Nat) :
    readHeader (writeBytes f o (headerBytes sz k fl)) o =
      ⟨sz % 65536, k % 256, fl % 256⟩ := by
  have hlen : (headerBytes sz k fl).length = 4 := rfl
  unfold readHeader read16
  rw [writeBytes_in (by omega) (by omega), writeBytes_in (by omega) (by omega),
    writeBytes_in (by omega) (by omega), writeBytes_in (by omega) (by omega)]
  simp only [headerBytes, Nat.sub_self]
  have e1 : o + 1 - o = 1 := by omega
  have e2 : o + 2 - o = 2 := by omega
  have e3 : o + 3 - o = 3 := by omega
  rw [e1, e2, e3]
  simp only [List.getD, List.get?, Option.getD_some]
  have e4 : sz % 256 + 256 * (sz / 256 % 256) = sz % 65536 := by omega
  rw [e4]

theorem read32_writeBytes_le32 (f : Flash) (o n : Nat) :
    read32 (writeBytes f o (le32 n)) o = n % 4294967296 := by
  have hlen : (le32 n).length = 4 := rfl
  unfold read32
  rw [writeBytes_in (by omega) (by omega), writeBytes_in (by omega) (by omega),
    writeBytes_in (by omega) (by omega), writeBytes_in (by omega) (by omega)]
  simp only [le32, Nat.sub_self]
  have e1 : o + 1 - o = 1 := by omega
  have e2 : o + 2 - o = 2 := by omega
  have e3 : o + 3 - o = 3 := by omega
  rw [e1, e2, e3]
  simp only [List.getD, List.get?, Option.getD_some]
  omega

/- Helper lemmas about modular arithmetic on offsets. -/

theorem add_mod_eq_mod_add_mod (o k bs : Nat) : (o + k) % bs = (o % bs + k) % bs := by
  conv_lhs => rw [← Nat.div_add_mod o bs]
  rw [Nat.add_assoc, Nat.add_comm (bs * (o / bs)), Nat.add_mul_mod_self_left]

theorem mod_add_le {bs : Nat} (o k l : Nat) (hbs : 0 < bs) (h : o % bs + (k + l) ≤ bs) :
    (o + k) % bs + l ≤ bs := by
  rw [add_mod_eq_mod_add_mod]
  rcases Nat.lt_or_ge (o % bs + k) bs with hlt | hge
  · rw [Nat.mod_eq_of_lt hlt]
    omega
  · have he : o % bs + k = bs := by omega
    rw [he, Nat.mod_self]
    omega

theorem mod_of_interval (bs a off : Nat) (h1 : a * bs ≤ off) (h2 : off < a * bs + bs) :
    off % bs = off - a * bs ∧ off / bs = a := by
  have hbs : 0 < bs := by omega
  have hoff : off = bs * a + (off - a * bs) := by
    rw [Nat.mul_comm]
    omega
  constructor
  · conv_lhs => rw [hoff]
    rw [Nat.mul_add_mod]
    exact Nat.mod_eq_of_lt (by omega)
  · conv_lhs => rw [hoff]
    rw [Nat.mul_add_div hbs]
    rw [Nat.div_eq_of_lt (by omega)]
    omega

theorem mod4_mod {off bs : Nat} (hoff : off % 4 = 0) (hbs : bs % 4 = 0) :
    off % bs % 4 = 0 := by
  rw [Nat.mod_mod_of_dvd off (Nat.dvd_of_mod_eq_zero hbs)]
  exact hoff

/- Branch lemmas for the write path. -/

theorem busyFix_of_ready {s : Log} (h : s.st = LState.ready) : busyFix s = s := by
  unfold busyFix
  rw [h]
  simp

theorem writeEntry_of_ready {s : Log} {kind : Nat} {info data : List Nat}
    (h : s.st = LState.ready) :
    Log.writeEntry s kind info data =
      ⟨true,
       (stepCommit (stepWrap (stepPad s (4 + info.length + data.length)).1).1 kind info data).1,
       (stepPad s (4 + info.length + data.length)).2 ++
         (stepWrap (stepPad s (4 + info.length + data.length)).1).2 ++
         (stepCommit (stepWrap (stepPad s (4 + info.length + data.length)).1).1 kind info data).2⟩ := by
  unfold Log.writeEntry
  rw [if_neg (by rw [h]; intro hc; cases hc), busyFix_of_ready h]

theorem stepPad_no {s : Log} {entrySize : Nat}
    (h : ¬ s.blockSize - s.writeOffset % s.blockSize < entrySize) :
    stepPad s entrySize = (s, []) := by
  unfold stepPad
  rw [if_neg h]

theorem stepPad_yes {s : Log} {entrySize : Nat}
    (h : s.blockSize - s.writeOffset % s.blockSize < entrySize) :
    stepPad s entrySize =
      ({ s with
          flash := writeBytes s.flash s.writeOffset
            (headerBytes ((s.blockSize - s.writeOffset % s.blockSize + 4294967296 - 4) %
              4294967296) 0 0),
          writeOffset := s.writeOffset + (s.blockSize - s.writeOffset % s.blockSize) },
       [(s.writeOffset,
         headerBytes ((s.blockSize - s.writeOffset % s.blockSize + 4294967296 - 4) %
           4294967296) 0 0)]) := by
  unfold stepPad
  rw [if_pos h]

theorem stepWrap_no {s : Log} (h : ¬ s.writeOffset % s.blockSize = 0) :
    stepWrap s = (s, []) := by
  unfold stepWrap
  rw [if_neg h]

theorem stepWrap_yes {s : Log} (h : s.writeOffset % s.blockSize = 0) :
    stepWrap s =
      ({ s with
          flash := writeBytes
            (eraseRange s.flash (s.writeOffset % (s.blockSize * s.totalBlocks)) s.blockSize)
            (s.writeOffset % (s.blockSize * s.totalBlocks))
            (blockStartBytes ((s.endBlock.sequence + 1) % 4294967296)),
          startBlock :=
            if s.writeOffset % (s.blockSize * s.totalBlocks) / s.blockSize = s.startBlock.number ∧
                ¬ s.startBlock.sequence = 0 then
              BlockInfo.mk ((s.startBlock.number + 1) % s.totalBlocks)
                ((s.startBlock.sequence + 1) % 4294967296)
            else s.startBlock,
          endBlock := ⟨s.writeOffset % (s.blockSize * s.totalBlocks) / s.blockSize,
            (s.endBlock.sequence + 1) % 4294967296⟩,
          writeOffset := s.writeOffset % (s.blockSize * s.totalBlocks) + 12 },
       [(s.writeOffset % (s.blockSize * s.totalBlocks),
         blockStartBytes ((s.endBlock.sequence + 1) % 4294967296))]) := by
  unfold stepWrap
  rw [if_pos h]

theorem commitFlash_out {f : Flash} {off kind : Nat} {info data : List Nat} {a : Nat}
    (h : a < off ∨ off + (4 + info.length + data.length) ≤ a) :
    commitFlash f off kind info data a = f a := by
  have hlen : ∀ sz k fl, (headerBytes sz k fl).length = 4 := fun _ _ _ => rfl
  simp only [commitFlash]
  rcases h with h | h
  · rw [writeBytes_lt h]
    by_cases hd : data.length ≠ 0
    · rw [if_pos hd, writeBytes_lt (by omega), writeBytes_lt (by omega), writeBytes_lt h]
    · rw [if_neg hd, writeBytes_lt (by omega), writeBytes_lt h]
  · rw [writeBytes_ge (by rw [hlen]; omega)]
    by_cases hd : data.length ≠ 0
    · rw [if_pos hd, writeBytes_ge (by omega), writeBytes_ge (by omega),
        writeBytes_ge (by rw [hlen]; omega)]
    · rw [if_neg hd, writeBytes_ge (by omega), writeBytes_ge (by rw [hlen]; omega)]

theorem commitFlash_header (f : Flash) (off kind : Nat) (info data : List Nat) :
    readHeader (commitFlash f off kind info data) off =
      ⟨(info.length + data.length) % 65536, kind % 256, 254⟩ := by
  simp only [commitFlash]
  rw [readHeader_writeBytes]
  have e1 : (info.length + data.length) % 65536 % 65536 = (info.length + data.length) % 65536 := by
    omega
  rw [e1]

theorem seqAt_blockStart (f : Flash) {bs : Nat} (ebn q : Nat) (hq : q < 4294967296) :
    seqAt (writeBytes f (ebn * bs) (blockStartBytes q)) bs ebn = q := by
  have hsplit : writeBytes f (ebn * bs) (blockStartBytes q) =
      writeBytes
        (writeBytes (writeBytes f (ebn * bs) (headerBytes 8 1 255)) (ebn * bs + 4) (le32 magic))
        (ebn * bs + 8) (le32 q) := by
    unfold blockStartBytes
    rw [writeBytes_append, writeBytes_append]
    rfl
  rw [hsplit]
  have hh : readHeader
      (writeBytes
        (writeBytes (writeBytes f (ebn * bs) (headerBytes 8 1 255)) (ebn * bs + 4) (le32 magic))
        (ebn * bs + 8) (le32 q)) (ebn * bs) = ⟨8, 1, 255⟩ := by
    rw [readHeader_congr (writeBytes f (ebn * bs) (headerBytes 8 1 255))
      (fun a ha1 ha2 => by
        rw [writeBytes_lt (by omega), writeBytes_lt (by omega)])]
    rw [readHeader_writeBytes]
  have hm : read32
      (writeBytes
        (writeBytes (writeBytes f (ebn * bs) (headerBytes 8 1 255)) (ebn * bs + 4) (le32 magic))
        (ebn * bs + 8) (le32 q)) (ebn * bs + 4) = magic := by
    rw [read32_congr (writeBytes (writeBytes f (ebn * bs) (headerBytes 8 1 255))
          (ebn * bs + 4) (le32 magic))
        (writeBytes_lt (by omega)) (writeBytes_lt (by omega))
        (writeBytes_lt (by omega)) (writeBytes_lt (by omega))]
    rw [read32_writeBytes_le32]
    rfl
  have hs : read32
      (writeBytes
        (writeBytes (writeBytes f (ebn * bs) (headerBytes 8 1 255)) (ebn * bs + 4) (le32 magic))
        (ebn * bs + 8) (le32 q)) (ebn * bs + 8) = q := by
    rw [read32_writeBytes_le32]
    omega
  unfold seqAt
  rw [hh, hm, hs]
  rw [if_pos ⟨rfl, rfl, rfl⟩]

/-- C3: the spec demands that init fail when the computed totalBlocks is zero,
but Log::init only checks blockSize: on a valid partition of size 8 with
blockSize 16 the computed totalBlocks is zero and init still returns success
(after which the write path would reduce modulo `blockSize * totalBlocks = 0`).
This theorem evaluates the code at the failing input. -/
theorem c3_totalBlocks_zero_accepted :
    (Log.init freshLog p0Ex).1 = true ∧
    (Log.init freshLog p0Ex).2.totalBlocks = 0 ∧
    (Log.init freshLog p0Ex).2.blockSize = 16 ∧
    (Log.init freshLog p0Ex).2.st = LState.ready := by decide

/-- C1 counterexample: after a single successful writeEntry from the fully
erased example partition the writing handle holds startBlock `{0, 0}` (the
retire branch never fires because startBlock.sequence is zero), while init on
a fresh handle bound to the same partition recovers startBlock `{0, 1}`:
init does not recover the writing handle's startBlock. -/
theorem c1_counterexample :
    wEx.ok = true ∧ reEx.1 = true ∧
    reEx.2.endBlock = wEx.log.endBlock ∧
    reEx.2.writeOffset = wEx.log.writeOffset ∧
    ¬ reEx.2.startBlock = wEx.log.startBlock := by decide

/-- C2 counterexample: two writes that exactly fill block 0 of a 32-byte-block
engine leave a reachable ready state with `writeOffset = 32`, so
`writeOffset / blockSize = 1` while `endBlock.number = 0`: the second
invariant of C2 fails at an exact block fill. -/
theorem c2_counterexample :
    c2Ex.st = LState.ready ∧
    c2Ex.writeOffset % 4 = 0 ∧
    ¬ c2Ex.writeOffset / c2Ex.blockSize = c2Ex.endBlock.number := by decide

/-- C6 counterexample: three empty writes from the erased two-block example
partition reach a ready state with endBlock.sequence 3 and startBlock
`{0, 0}` (never retired, since startBlock.sequence stays zero in a session
started from an erased partition), so
`endBlock.sequence - startBlock.sequence + 1 = 4 > 2 = totalBlocks`. -/
theorem c6_counterexample :
    run3Ex.st = LState.ready ∧
    run3Ex.totalBlocks = 2 ∧
    ¬ run3Ex.endBlock.sequence - run3Ex.startBlock.sequence + 1 ≤ run3Ex.totalBlocks := by decide

/-- C4 (amended): Log::read returns a negative count (-1) with no partition
reads issued exactly when the engine is not ready or the requested sequence
exceeds endBlock.sequence; in every other case the result is the non-negative
total (possibly zero) of the bytes requested from the mapped ring positions. -/
theorem c4_read_refusal (s : Log) (block offset bufSize : Nat)
    (hb : block < 65536) (ho : offset < 65536) (hn : bufSize < 65536) :
    (((Log.read s block offset bufSize).result < 0 ∧
        (Log.read s block offset bufSize).reads = []) ↔
      (¬ s.st = LState.ready ∨ s.endBlock.sequence < block)) ∧
    ((s.st = LState.ready ∧ block ≤ s.endBlock.sequence) →
      (Log.read s block offset bufSize).result =
        Int.ofNat (((Log.read s block offset bufSize).reads.map Prod.snd).sum) ∧
      0 ≤ (Log.read s block offset bufSize).result) := by
  unfold Log.read
  by_cases h1 : ¬ s.st = LState.ready
  · rw [if_pos h1]
    exact ⟨⟨fun _ => Or.inl h1, fun _ => ⟨by decide, rfl⟩⟩, fun hc => absurd hc.1 h1⟩
  · rw [if_neg h1]
    by_cases h2 : s.endBlock.sequence < block
    · rw [if_pos h2]
      refine ⟨⟨fun _ => Or.inr h2, fun _ => ⟨by decide, rfl⟩⟩, ?_⟩
      intro hc
      rcases hc with ⟨_, hle⟩
      omega
    · rw [if_neg h2]
      simp only []
      set ro0 : Nat :=
        ((s.startBlock.number + block + 4294967296 - s.startBlock.sequence) % 4294967296 *
            s.blockSize % 4294967296 + offset) % 4294967296 with hro0
      set ro1 : Nat :=
        if s.totalBlocks * s.blockSize ≤ ro0 then ro0 - s.totalBlocks * s.blockSize else ro0
        with hro1
      constructor
      · constructor
        · intro hc
          rcases hc with ⟨hneg, _⟩
          exfalso
          split at hneg <;> dsimp only at hneg <;>
            simp only [Int.ofNat_eq_coe] at hneg <;> omega
        · intro hc
          rcases hc with hc | hc
          · exact absurd hc h1
          · omega
      · intro _
        constructor
        · split
          · dsimp only
            split
            · rename_i hl2
              simp only [List.map_cons, List.map_nil, List.sum_cons, List.sum_nil,
                Nat.add_zero]
            · rename_i hl2
              push_neg at hl2
              simp only [hl2, List.map_cons, List.map_nil, List.sum_cons, List.sum_nil,
                Nat.add_zero]
          · dsimp only
            split
            · rename_i hl
              simp only [List.map_cons, List.map_nil, List.sum_cons, List.sum_nil,
                Nat.add_zero]
            · rename_i hl
              push_neg at hl
              simp only [hl, List.map_nil, List.sum_nil]
        · split <;> exact Int.ofNat_nonneg _

/-- C4 counterexample: in the ready post-write example state (endBlock
sequence 1, startBlock `{0, 0}`), `read(1, 0, 8)` returns 0 and issues no
partition read — a non-positive result with no bytes delivered — although the
engine is ready and the requested sequence does not exceed
endBlock.sequence.  The claimed if-and-only-if fails under its reading of
"no data" as a non-positive result. -/
theorem c4_counterexample :
    (Log.read wEx.log 1 0 8).result ≤ 0 ∧ (Log.read wEx.log 1 0 8).reads = [] ∧
    wEx.log.st = LState.ready ∧ ¬ wEx.log.endBlock.sequence < 1 := by decide

/-- C4 witness: the amended refusal characterisation instantiated at the
post-write example state. -/
theorem c4_witness :
    ((((Log.read wEx.log 1 0 8).result < 0 ∧ (Log.read wEx.log 1 0 8).reads = []) ↔
        (¬ wEx.log.st = LState.ready ∨ wEx.log.endBlock.sequence < 1)) ∧
     ((wEx.log.st = LState.ready ∧ 1 ≤ wEx.log.endBlock.sequence) →
       (Log.read wEx.log 1 0 8).result =
         Int.ofNat (((Log.read wEx.log 1 0 8).reads.map Prod.snd).sum) ∧
       0 ≤ (Log.read wEx.log 1 0 8).result)) :=
  c4_read_refusal wEx.log 1 0 8 (by decide) (by decide) (by decide)

/-- C9: DataLogReader::seekFrom repositions the cursor to the offset resolved
against the requested origin (Start, Current or End, in the unsigned 32-bit
arithmetic of the code) and returns the new position; it returns an error
exactly when the resolved position lies past the end of the bound span. -/
theorem c9_seekFrom (r : ReaderState) (offset : Int) (origin : SeekOrigin) :
    ((seekFrom r offset origin).2 = -1 ↔ r.size < resolveSeek r offset origin) ∧
    (resolveSeek r offset origin ≤ r.size →
      (seekFrom r offset origin).2 = Int.ofNat (resolveSeek r offset origin) ∧
      (seekFrom r offset origin).1.readPos = resolveSeek r offset origin) := by
  unfold seekFrom
  by_cases h : r.size < resolveSeek r offset origin
  · rw [if_pos h]
    exact ⟨⟨fun _ => h, fun _ => rfl⟩, fun hc => absurd h (by omega)⟩
  · rw [if_neg h]
    constructor
    · constructor
      · intro hc
        dsimp only at hc
        simp only [Int.ofNat_eq_coe] at hc
        omega
      · intro hc
        exact absurd hc h
    · intro _
      exact ⟨rfl, rfl⟩

/-- C9 witness: seeking backwards 50 bytes from the current position 100 of
the example reader resolves to 50, within the 200-byte span, so the cursor
moves there and 50 is returned. -/
theorem c9_witness :
    (seekFrom rdEx (-50) SeekOrigin.Current).2 =
      Int.ofNat (resolveSeek rdEx (-50) SeekOrigin.Current) ∧
    (seekFrom rdEx (-50) SeekOrigin.Current).1.readPos =
      resolveSeek rdEx (-50) SeekOrigin.Current :=
  (c9_seekFrom rdEx (-50) SeekOrigin.Current).2 (by decide)

/-- C10: the accessors getStartBlock, getEndBlock and getFullBlockCount return
the internal 32-bit sequence numbers (and their difference) truncated to
`uint16_t`: sequence values of 65536 or more wrap at the public interface. -/
theorem c10_accessors (s : Log) (hle : s.startBlock.sequence ≤ s.endBlock.sequence)
    (hlt : s.endBlock.sequence < 4294967296) :
    Log.getStartBlock s = s.startBlock.sequence % 65536 ∧
    Log.getEndBlock s = s.endBlock.sequence % 65536 ∧
    Log.getFullBlockCount s = (s.endBlock.sequence - s.startBlock.sequence) % 65536 := by
  refine ⟨rfl, rfl, ?_⟩
  unfold Log.getFullBlockCount
  omega

/-- C10 witness: on the example state with sequences 70000 and 200000 the
accessors return the `uint16_t`-truncated values. -/
theorem c10_witness :
    Log.getStartBlock c10Ex = c10Ex.startBlock.sequence % 65536 ∧
    Log.getEndBlock c10Ex = c10Ex.endBlock.sequence % 65536 ∧
    Log.getFullBlockCount c10Ex =
      (c10Ex.endBlock.sequence - c10Ex.startBlock.sequence) % 65536 :=
  c10_accessors c10Ex (by decide) (by decide)

/-- C5: in a ready state with aligned offsets, when the free space
`space = blockSize - writeOffset % blockSize` is smaller than
`sizeof(header) + infoLength + dataLength`, writeEntry first writes a pad
header with `size = space - sizeof(header)` and `flags = 0` at writeOffset,
then starts a fresh block (block-aligned position, new block record with the
incremented sequence) and commits the entry inside it.  With `space = 4` the
pad payload is empty and the wrap still fires (see the witness). -/
theorem c5_pad (s : Log) (kind : Nat) (info data : List Nat)
    (hready : s.st = LState.ready)
    (hoff4 : s.writeOffset % 4 = 0) (hbs4 : s.blockSize % 4 = 0) (hbs0 : 0 < s.blockSize)
    (hbsU : s.blockSize < 65536)
    (hspace : s.blockSize - s.writeOffset % s.blockSize < 4 + info.length + data.length) :
    (Log.writeEntry s kind info data).ok = true ∧
    (Log.writeEntry s kind info data).trace =
      (s.writeOffset, headerBytes (s.blockSize - s.writeOffset % s.blockSize - 4) 0 0) ::
      ((s.writeOffset + (s.blockSize - s.writeOffset % s.blockSize)) %
          (s.blockSize * s.totalBlocks),
        blockStartBytes ((s.endBlock.sequence + 1) % 4294967296)) ::
      commitTrace ((s.writeOffset + (s.blockSize - s.writeOffset % s.blockSize)) %
          (s.blockSize * s.totalBlocks) + 12) kind info data ∧
    (Log.writeEntry s kind info data).log.endBlock =
      ⟨(s.writeOffset + (s.blockSize - s.writeOffset % s.blockSize)) %
          (s.blockSize * s.totalBlocks) / s.blockSize,
        (s.endBlock.sequence + 1) % 4294967296⟩ ∧
    (s.writeOffset + (s.blockSize - s.writeOffset % s.blockSize)) %
        (s.blockSize * s.totalBlocks) % s.blockSize = 0 ∧
    (Log.writeEntry s kind info data).log.writeOffset =
      (s.writeOffset + (s.blockSize - s.writeOffset % s.blockSize)) %
        (s.blockSize * s.totalBlocks) + 12 + 4 +
        alignup4 ((info.length + data.length) % 65536) := by
  have hr4 : s.writeOffset % s.blockSize % 4 = 0 := mod4_mod hoff4 hbs4
  have hrlt : s.writeOffset % s.blockSize < s.blockSize := Nat.mod_lt _ hbs0
  have hpadsz : (s.blockSize - s.writeOffset % s.blockSize + 4294967296 - 4) % 4294967296 =
      s.blockSize - s.writeOffset % s.blockSize - 4 := by omega
  have hw : (s.writeOffset + (s.blockSize - s.writeOffset % s.blockSize)) % s.blockSize = 0 := by
    rw [add_mod_eq_mod_add_mod]
    have he : s.writeOffset % s.blockSize + (s.blockSize - s.writeOffset % s.blockSize) =
        s.blockSize := by omega
    rw [he, Nat.mod_self]
  have hnb : (s.writeOffset + (s.blockSize - s.writeOffset % s.blockSize)) %
      (s.blockSize * s.totalBlocks) % s.blockSize = 0 := by
    rw [Nat.mod_mod_of_dvd _ (dvd_mul_right s.blockSize s.totalBlocks)]
    exact hw
  rw [writeEntry_of_ready hready, stepPad_yes hspace]
  dsimp only
  rw [stepWrap_yes hw]
  dsimp only
  unfold stepCommit
  dsimp only
  rw [hpadsz]
  exact ⟨rfl, rfl, rfl, hnb, rfl⟩

/-- C5 witness: with exactly `space = sizeof(header) = 4` bytes free
(writeOffset 12 in a 16-byte block), writing a one-byte entry emits a pad
with a zero-length payload and wraps to a fresh block. -/
theorem c5_witness :
    16 - c5Ex.writeOffset % 16 = 4 ∧
    ((Log.writeEntry c5Ex 3 [9] []).ok = true ∧
     (Log.writeEntry c5Ex 3 [9] []).trace =
       (c5Ex.writeOffset,
         headerBytes (c5Ex.blockSize - c5Ex.writeOffset % c5Ex.blockSize - 4) 0 0) ::
       ((c5Ex.writeOffset + (c5Ex.blockSize - c5Ex.writeOffset % c5Ex.blockSize)) %
           (c5Ex.blockSize * c5Ex.totalBlocks),
         blockStartBytes ((c5Ex.endBlock.sequence + 1) % 4294967296)) ::
       commitTrace ((c5Ex.writeOffset + (c5Ex.blockSize - c5Ex.writeOffset % c5Ex.blockSize)) %
           (c5Ex.blockSize * c5Ex.totalBlocks) + 12) 3 [9] [] ∧
     (Log.writeEntry c5Ex 3 [9] []).log.endBlock =
       ⟨(c5Ex.writeOffset + (c5Ex.blockSize - c5Ex.writeOffset % c5Ex.blockSize)) %
           (c5Ex.blockSize * c5Ex.totalBlocks) / c5Ex.blockSize,
         (c5Ex.endBlock.sequence + 1) % 4294967296⟩ ∧
     (c5Ex.writeOffset + (c5Ex.blockSize - c5Ex.writeOffset % c5Ex.blockSize)) %
         (c5Ex.blockSize * c5Ex.totalBlocks) % c5Ex.blockSize = 0 ∧
     (Log.writeEntry c5Ex 3 [9] []).log.writeOffset =
       (c5Ex.writeOffset + (c5Ex.blockSize - c5Ex.writeOffset % c5Ex.blockSize)) %
         (c5Ex.blockSize * c5Ex.totalBlocks) + 12 + 4 +
         alignup4 ((List.length [9] + List.length ([] : List Nat)) % 65536)) :=
  ⟨by decide,
   c5_pad c5Ex 3 [9] [] rfl (by decide) (by decide) (by decide) (by decide) (by decide)⟩

/-- C8 (amended): in a ready state with aligned offsets, for an entry whose
info and data together fit in a block alongside the entry header and a block
record (`infoLength + dataLength + 16 ≤ blockSize`), every partition write
issued by writeEntry (pad header, block-start record, entry header, info
bytes, data bytes, header rewrite) lies wholly within a single block. -/
theorem c8_within_block (s : Log) (kind : Nat) (info data : List Nat)
    (hready : s.st = LState.ready)
    (hoff4 : s.writeOffset % 4 = 0) (hbs4 : s.blockSize % 4 = 0) (hbs16 : 16 ≤ s.blockSize)
    (hsz : info.length + data.length + 16 ≤ s.blockSize) :
    ∀ pr ∈ (Log.writeEntry s kind info data).trace,
      pr.1 % s.blockSize + pr.2.length ≤ s.blockSize := by
  have hbs0 : 0 < s.blockSize := by omega
  have hr4 : s.writeOffset % s.blockSize % 4 = 0 := mod4_mod hoff4 hbs4
  have hrlt : s.writeOffset % s.blockSize < s.blockSize := Nat.mod_lt _ hbs0
  have hhb : ∀ sz k fl, (headerBytes sz k fl).length = 4 := fun _ _ _ => rfl
  have hbb : ∀ q, (blockStartBytes q).length = 12 := fun _ => rfl
  rw [writeEntry_of_ready hready]
  by_cases hpad : s.blockSize - s.writeOffset % s.blockSize < 4 + info.length + data.length
  · rw [stepPad_yes hpad]
    dsimp only
    have hw : (s.writeOffset + (s.blockSize - s.writeOffset % s.blockSize)) % s.blockSize =
        0 := by
      rw [add_mod_eq_mod_add_mod]
      have he : s.writeOffset % s.blockSize + (s.blockSize - s.writeOffset % s.blockSize) =
          s.blockSize := by omega
      rw [he, Nat.mod_self]
    rw [stepWrap_yes hw]
    dsimp only
    unfold stepCommit commitTrace
    dsimp only
    set nb := (s.writeOffset + (s.blockSize - s.writeOffset % s.blockSize)) %
      (s.blockSize * s.totalBlocks) with hnbdef
    have hnb : nb % s.blockSize = 0 := by
      rw [hnbdef, Nat.mod_mod_of_dvd _ (dvd_mul_right s.blockSize s.totalBlocks)]
      exact hw
    intro pr hpr
    simp only [List.cons_append, List.nil_append, List.mem_cons, List.mem_append,
      List.mem_singleton, List.not_mem_nil, or_false, false_or] at hpr
    rcases hpr with h | h | h | h | h
    · rw [h]
      dsimp only
      rw [hhb]
      omega
    · rw [h]
      dsimp only
      rw [hbb]
      omega
    · rw [h]
      dsimp only
      rw [hhb]
      have hle := mod_add_le nb 12 4 hbs0 (by omega)
      omega
    · rw [h]
      dsimp only
      have e1 : nb + 12 + 4 = nb + 16 := by omega
      rw [e1]
      exact mod_add_le _ _ _ hbs0 (by omega)
    · rcases h with h | h
      · split at h
        · simp only [List.mem_singleton] at h
          rw [h]
          dsimp only
          have e1 : nb + 12 + 4 + info.length = nb + (16 + info.length) := by omega
          rw [e1]
          exact mod_add_le _ _ _ hbs0 (by omega)
        · simp only [List.not_mem_nil] at h
      · rw [h]
        dsimp only
        rw [hhb]
        have hle := mod_add_le nb 12 4 hbs0 (by omega)
        omega
  · rw [stepPad_no hpad]
    dsimp only
    have hfit : s.writeOffset % s.blockSize + (4 + info.length + data.length) ≤
        s.blockSize := by omega
    by_cases hwrap : s.writeOffset % s.blockSize = 0
    · rw [stepWrap_yes hwrap]
      dsimp only
      unfold stepCommit commitTrace
      dsimp only
      set nb := s.writeOffset % (s.blockSize * s.totalBlocks) with hnbdef
      have hnb : nb % s.blockSize = 0 := by
        rw [hnbdef, Nat.mod_mod_of_dvd _ (dvd_mul_right s.blockSize s.totalBlocks)]
        exact hwrap
      intro pr hpr
      simp only [List.cons_append, List.nil_append, List.mem_cons, List.mem_append,
        List.mem_singleton, List.not_mem_nil, or_false, false_or] at hpr
      rcases hpr with h | h | h | h
      · rw [h]
        dsimp only
        rw [hbb]
        omega
      · rw [h]
        dsimp only
        rw [hhb]
        have hle := mod_add_le nb 12 4 hbs0 (by omega)
        omega
      · rw [h]
        dsimp only
        have e1 : nb + 12 + 4 = nb + 16 := by omega
        rw [e1]
        exact mod_add_le _ _ _ hbs0 (by omega)
      · rcases h with h | h
        · split at h
          · simp only [List.mem_singleton] at h
            rw [h]
            dsimp only
            have e1 : nb + 12 + 4 + info.length = nb + (16 + info.length) := by omega
            rw [e1]
            exact mod_add_le _ _ _ hbs0 (by omega)
          · simp only [List.not_mem_nil] at h
        · rw [h]
          dsimp only
          rw [hhb]
          have hle := mod_add_le nb 12 4 hbs0 (by omega)
          omega
    · rw [stepWrap_no hwrap]
      dsimp only
      unfold stepCommit commitTrace
      dsimp only
      intro pr hpr
      simp only [List.cons_append, List.nil_append, List.mem_cons, List.mem_append,
        List.mem_singleton, List.not_mem_nil, or_false, false_or] at hpr
      rcases hpr with h | h | h
      · rw [h]
        dsimp only
        rw [hhb]
        omega
      · rw [h]
        dsimp only
        exact mod_add_le _ _ _ hbs0 (by omega)
      · rcases h with h | h
        · split at h
          · simp only [List.mem_singleton] at h
            rw [h]
            dsimp only
            have e1 : s.writeOffset + 4 + info.length = s.writeOffset + (4 + info.length) := by
              omega
            rw [e1]
            exact mod_add_le _ _ _ hbs0 (by omega)
          · simp only [List.not_mem_nil] at h
        · rw [h]
          dsimp only
          rw [hhb]
          omega

/-- C8 counterexample: from the freshly initialised 16-byte-block engine, a
writeEntry of 20 info bytes issues a partition write of 20 bytes at absolute
offset 32, whose byte range crosses the block boundary at offset 48. -/
theorem c8_counterexample :
    sEx.st = LState.ready ∧
    (32, List.replicate 20 7) ∈ c8Ex.trace ∧
    ¬ 32 % sEx.blockSize + (List.replicate 20 7).length ≤ sEx.blockSize ∧
    32 / sEx.blockSize < (32 + 20 - 1) / sEx.blockSize := by decide

/-- C8 witness: the within-a-block property instantiated on a small committed
write from the freshly initialised example engine. -/
theorem c8_witness :
    (0, blockStartBytes 1).1 % (Log.init freshLog p32Ex).2.blockSize +
      (0, blockStartBytes 1).2.length ≤ (Log.init freshLog p32Ex).2.blockSize :=
  c8_within_block (Log.init freshLog p32Ex).2 2 [5] [] (by decide) (by decide) (by decide)
    (by decide) (by decide) (0, blockStartBytes 1) (by decide)

/- Characterisation of the maximum-sequence scan of Log::init. -/

theorem ringSub_zero (tb n : Nat) : ringSub tb n 0 = n := rfl

theorem ringSub_succ (tb n j : Nat) :
    ringSub tb n (j + 1) = ringSub tb (if n = 0 then tb - 1 else n - 1) j := rfl

theorem scanMax_spec (seqs : Nat → Nat) : ∀ tb,
    (∀ b, b < tb → seqs b ≤ (scanMax seqs tb).sequence) ∧
    ((scanMax seqs tb).sequence = 0 → (scanMax seqs tb).number = 0) ∧
    (¬ (scanMax seqs tb).sequence = 0 →
      (scanMax seqs tb).number < tb ∧
      seqs (scanMax seqs tb).number = (scanMax seqs tb).sequence ∧
      ∀ b, b < (scanMax seqs tb).number → seqs b < (scanMax seqs tb).sequence) := by
  intro tb
  induction tb with
  | zero =>
    refine ⟨fun b hb => absurd hb (by omega), fun _ => rfl, fun h => absurd rfl h⟩
  | succ k ih =>
    have hstep : scanMax seqs (k + 1) =
        if (scanMax seqs k).sequence < seqs k then ⟨k, seqs k⟩ else scanMax seqs k := by
      unfold scanMax
      rw [List.range_succ, List.foldl_append, List.foldl_cons, List.foldl_nil]
    rw [hstep]
    by_cases hc : (scanMax seqs k).sequence < seqs k
    · rw [if_pos hc]
      dsimp only
      refine ⟨?_, ?_, ?_⟩
      · intro b hb
        rcases Nat.lt_or_ge b k with hbk | hbk
        · have := ih.1 b hbk
          omega
        · have hbe : b = k := by omega
          rw [hbe]
      · intro h0
        omega
      · intro _
        refine ⟨by omega, rfl, ?_⟩
        intro b hb
        have := ih.1 b hb
        omega
    · rw [if_neg hc]
      refine ⟨?_, ih.2.1, ?_⟩
      · intro b hb
        rcases Nat.lt_or_ge b k with hbk | hbk
        · exact ih.1 b hbk
        · have hbe : b = k := by omega
          rw [hbe]
          omega
      · intro h
        obtain ⟨h1, h2, h3⟩ := ih.2.2 h
        exact ⟨by omega, h2, h3⟩

/- Characterisation of the backwards start-block scan of Log::init. -/

theorem walkBackAux_succ (seqs : Nat → Nat) (tb fuel : Nat) (block : BlockInfo) :
    walkBackAux seqs tb (fuel + 1) block =
      if block.sequence ≤ 1 then block
      else if seqs (if block.number = 0 then tb - 1 else block.number - 1) =
          block.sequence - 1 then
        walkBackAux seqs tb fuel
          ⟨if block.number = 0 then tb - 1 else block.number - 1, block.sequence - 1⟩
      else block := rfl

theorem walkBackAux_spec (seqs : Nat → Nat) (tb : Nat) :
    ∀ fuel block, 1 ≤ block.sequence → block.sequence ≤ fuel →
    ∃ L, L < block.sequence ∧
      walkBackAux seqs tb fuel block = ⟨ringSub tb block.number L, block.sequence - L⟩ ∧
      (∀ j, 1 ≤ j → j ≤ L → seqs (ringSub tb block.number j) = block.sequence - j) ∧
      (block.sequence - L = 1 ∨
        ¬ seqs (ringSub tb block.number (L + 1)) = block.sequence - (L + 1)) := by
  intro fuel
  induction fuel with
  | zero =>
    intro block h1 h2
    omega
  | succ k ih =>
    intro block h1 h2
    obtain ⟨bn, bseq⟩ := block
    dsimp only at h1 h2 ⊢
    by_cases hs1 : bseq ≤ 1
    · refine ⟨0, by omega, ?_, fun j hj1 hj2 => by omega, Or.inl (by omega)⟩
      rw [walkBackAux_succ]
      rw [if_pos (by dsimp only; omega)]
      rfl
    · by_cases hm : seqs (if bn = 0 then tb - 1 else bn - 1) = bseq - 1
      · obtain ⟨L', hL1, hL2, hL3, hL4⟩ :=
          ih ⟨if bn = 0 then tb - 1 else bn - 1, bseq - 1⟩ (by dsimp only; omega)
            (by dsimp only; omega)
        dsimp only at hL1 hL2 hL3 hL4
        have hwstep : walkBackAux seqs tb (k + 1) ⟨bn, bseq⟩ =
            walkBackAux seqs tb k ⟨if bn = 0 then tb - 1 else bn - 1, bseq - 1⟩ := by
          rw [walkBackAux_succ]
          rw [if_neg (by dsimp only; omega)]
          dsimp only
          rw [if_pos hm]
        refine ⟨L' + 1, by omega, ?_, ?_, ?_⟩
        · rw [hwstep, hL2, ringSub_succ]
          congr 1
          omega
        · intro j hj1 hj2
          rcases Nat.eq_or_lt_of_le hj1 with he | hlt
          · rw [← he, ringSub_succ, ringSub_zero]
            omega
          · have hj' : j - 1 + 1 = j := by omega
            rw [← hj', ringSub_succ]
            have := hL3 (j - 1) (by omega) (by omega)
            rw [this]
            omega
        · rcases hL4 with h4 | h4
          · left
            omega
          · right
            rw [ringSub_succ]
            intro hcon
            apply h4
            rw [show bseq - 1 - (L' + 1) = bseq - (L' + 1 + 1) by omega]
            exact hcon
      · refine ⟨0, by omega, ?_, fun j hj1 hj2 => by omega, Or.inr ?_⟩
        · rw [walkBackAux_succ]
          rw [if_neg (by dsimp only; omega)]
          dsimp only
          rw [if_neg hm]
          rfl
        · rw [ringSub_succ, ringSub_zero]
          intro hcon
          apply hm
          rw [show bseq - 1 = bseq - (0 + 1) by omega]
          exact hcon

/-- C7: for a partition whose block headers yield at least one valid (non-zero)
sequence number, init selects endBlock as the first slot attaining the maximum
recorded sequence, and then fixes startBlock by walking backwards from
endBlock — decrementing the expected sequence (stopping when it reaches 1)
and the ring-modular block number — while each scanned slot's recorded
sequence equals the expected predecessor; the walk ends at the oldest
still-contiguous block. -/
theorem c7_init_scan (p : Partition) (hv : p.valid = true)
    (hbs : ¬ p.pageSize * 4 % 65536 = 0)
    (hne : ∃ b, b < p.psize / (p.pageSize * 4 % 65536) % 65536 ∧
      ¬ seqAt p.flash (p.pageSize * 4 % 65536) b = 0) :
    (Log.init freshLog p).1 = true ∧
    (∀ b, b < p.psize / (p.pageSize * 4 % 65536) % 65536 →
      seqAt p.flash (p.pageSize * 4 % 65536) b ≤ (Log.init freshLog p).2.endBlock.sequence) ∧
    (Log.init freshLog p).2.endBlock.number < p.psize / (p.pageSize * 4 % 65536) % 65536 ∧
    seqAt p.flash (p.pageSize * 4 % 65536) (Log.init freshLog p).2.endBlock.number =
      (Log.init freshLog p).2.endBlock.sequence ∧
    (∀ b, b < (Log.init freshLog p).2.endBlock.number →
      seqAt p.flash (p.pageSize * 4 % 65536) b < (Log.init freshLog p).2.endBlock.sequence) ∧
    (∃ L, L < (Log.init freshLog p).2.endBlock.sequence ∧
      (Log.init freshLog p).2.startBlock =
        ⟨ringSub (p.psize / (p.pageSize * 4 % 65536) % 65536)
            (Log.init freshLog p).2.endBlock.number L,
          (Log.init freshLog p).2.endBlock.sequence - L⟩ ∧
      (∀ j, 1 ≤ j → j ≤ L →
        seqAt p.flash (p.pageSize * 4 % 65536)
            (ringSub (p.psize / (p.pageSize * 4 % 65536) % 65536)
              (Log.init freshLog p).2.endBlock.number j) =
          (Log.init freshLog p).2.endBlock.sequence - j) ∧
      ((Log.init freshLog p).2.endBlock.sequence - L = 1 ∨
        ¬ seqAt p.flash (p.pageSize * 4 % 65536)
              (ringSub (p.psize / (p.pageSize * 4 % 65536) % 65536)
                (Log.init freshLog p).2.endBlock.number (L + 1)) =
            (Log.init freshLog p).2.endBlock.sequence - (L + 1))) := by
  have hmax := scanMax_spec (fun b => seqAt p.flash (p.pageSize * 4 % 65536) b)
    (p.psize / (p.pageSize * 4 % 65536) % 65536)
  have hne' : ¬ (scanMax (fun b => seqAt p.flash (p.pageSize * 4 % 65536) b)
      (p.psize / (p.pageSize * 4 % 65536) % 65536)).sequence = 0 := by
    obtain ⟨b, hb, hbne⟩ := hne
    have := hmax.1 b hb
    omega
  obtain ⟨hle, _, hmem⟩ := hmax
  obtain ⟨hnum, hval, hfirst⟩ := hmem hne'
  have hwalk := walkBackAux_spec (fun b => seqAt p.flash (p.pageSize * 4 % 65536) b)
    (p.psize / (p.pageSize * 4 % 65536) % 65536)
    (scanMax (fun b => seqAt p.flash (p.pageSize * 4 % 65536) b)
      (p.psize / (p.pageSize * 4 % 65536) % 65536)).sequence
    (scanMax (fun b => seqAt p.flash (p.pageSize * 4 % 65536) b)
      (p.psize / (p.pageSize * 4 % 65536) % 65536))
    (by omega) (by omega)
  obtain ⟨L, hL1, hL2, hL3, hL4⟩ := hwalk
  unfold Log.init
  rw [if_neg (by rw [hv]; intro hcon; cases hcon), if_neg hbs, if_neg hne']
  dsimp only
  refine ⟨rfl, hle, hnum, hval, hfirst, L, hL1, ?_, hL3, hL4⟩
  unfold walkBack
  exact hL2

/-- C7 witness: the init-scan characterisation instantiated on the partition
image left by one write (block 0 holds sequence 1, block 1 is erased). -/
theorem c7_witness :
    (Log.init freshLog c7Ex).1 = true ∧
    (∀ b, b < c7Ex.psize / (c7Ex.pageSize * 4 % 65536) % 65536 →
      seqAt c7Ex.flash (c7Ex.pageSize * 4 % 65536) b ≤
        (Log.init freshLog c7Ex).2.endBlock.sequence) ∧
    (Log.init freshLog c7Ex).2.endBlock.number <
      c7Ex.psize / (c7Ex.pageSize * 4 % 65536) % 65536 ∧
    seqAt c7Ex.flash (c7Ex.pageSize * 4 % 65536) (Log.init freshLog c7Ex).2.endBlock.number =
      (Log.init freshLog c7Ex).2.endBlock.sequence ∧
    (∀ b, b < (Log.init freshLog c7Ex).2.endBlock.number →
      seqAt c7Ex.flash (c7Ex.pageSize * 4 % 65536) b <
        (Log.init freshLog c7Ex).2.endBlock.sequence) ∧
    (∃ L, L < (Log.init freshLog c7Ex).2.endBlock.sequence ∧
      (Log.init freshLog c7Ex).2.startBlock =
        ⟨ringSub (c7Ex.psize / (c7Ex.pageSize * 4 % 65536) % 65536)
            (Log.init freshLog c7Ex).2.endBlock.number L,
          (Log.init freshLog c7Ex).2.endBlock.sequence - L⟩ ∧
      (∀ j, 1 ≤ j → j ≤ L →
        seqAt c7Ex.flash (c7Ex.pageSize * 4 % 65536)
            (ringSub (c7Ex.psize / (c7Ex.pageSize * 4 % 65536) % 65536)
              (Log.init freshLog c7Ex).2.endBlock.number j) =
          (Log.init freshLog c7Ex).2.endBlock.sequence - j) ∧
      ((Log.init freshLog c7Ex).2.endBlock.sequence - L = 1 ∨
        ¬ seqAt c7Ex.flash (c7Ex.pageSize * 4 % 65536)
              (ringSub (c7Ex.psize / (c7Ex.pageSize * 4 % 65536) % 65536)
                (Log.init freshLog c7Ex).2.endBlock.number (L + 1)) =
            (Log.init freshLog c7Ex).2.endBlock.sequence - (L + 1))) :=
  c7_init_scan c7Ex rfl (by decide) ⟨0, by decide, by decide⟩

/- Lemmas about entry chains and the end-block scan. -/

theorem chain_le {f : Flash} {o t : Nat} (h : Chain f o t) : o ≤ t := by
  induction h with
  | nil o => exact Nat.le_refl o
  | cons o t hk htail ih =>
    have h4 := four_le_alignup4_add (readHeader f o).size
    omega

theorem chain_congr {f g : Flash} {o t : Nat} (h : Chain f o t)
    (hag : ∀ a, o ≤ a → a < t → f a = g a) : Chain g o t := by
  induction h with
  | nil o => exact Chain.nil o
  | cons o t hk htail ih =>
    have h4 := four_le_alignup4_add (readHeader f o).size
    have hnext := chain_le htail
    have hhdr : readHeader g o = readHeader f o :=
      readHeader_congr f (fun a ha1 ha2 => (hag a ha1 (by omega)).symm)
    apply Chain.cons
    · rw [hhdr]
      exact hk
    · rw [hhdr]
      exact ih (fun a ha1 ha2 => hag a (by omega) ha2)

theorem chain_append {f : Flash} {a b c : Nat} (h1 : Chain f a b) :
    Chain f b c → Chain f a c := by
  induction h1 with
  | nil o => exact fun h2 => h2
  | cons o t hk htail ih => exact fun h2 => Chain.cons o c hk (ih h2)

theorem scanBlockAux_succ (f : Flash) (endOffset fuel off : Nat) :
    scanBlockAux f endOffset (fuel + 1) off =
      if (readHeader f off).kind = 255 then off
      else if off + alignup4 (4 + (readHeader f off).size) < endOffset then
        scanBlockAux f endOffset fuel (off + alignup4 (4 + (readHeader f off).size))
      else off + alignup4 (4 + (readHeader f off).size) := rfl

theorem scanBlockAux_chain {f : Flash} {endOffset : Nat} :
    ∀ fuel o t, Chain f o t → o < endOffset → endOffset - o ≤ fuel →
    t ≤ endOffset → (t = endOffset ∨ f (t + 2) = 255) →
    scanBlockAux f endOffset fuel o = t := by
  intro fuel
  induction fuel with
  | zero =>
    intro o t hc ho hf hle ht
    omega
  | succ k ih =>
    intro o t hc ho hf hle ht
    cases hc with
    | nil =>
      have ht' : f (o + 2) = 255 := by
        rcases ht with h | h
        · omega
        · exact h
      rw [scanBlockAux_succ, if_pos (by simp only [readHeader]; exact ht')]
    | cons o t hk htail =>
      have h4 := four_le_alignup4_add (readHeader f o).size
      have hnext := chain_le htail
      rw [scanBlockAux_succ, if_neg hk]
      by_cases hlt : o + alignup4 (4 + (readHeader f o).size) < endOffset
      · rw [if_pos hlt]
        exact ih _ t htail hlt (by omega) hle ht
      · rw [if_neg hlt]
        omega

theorem scanBlock_of_chain {f : Flash} {endOffset o t : Nat} (hc : Chain f o t)
    (ho : o < endOffset) (hle : t ≤ endOffset) (ht : t = endOffset ∨ f (t + 2) = 255) :
    scanBlock f endOffset o = t :=
  scanBlockAux_chain (endOffset - o) o t hc ho (Nat.le_refl _) hle ht

/-- Byte image of a fresh block record parses back as header `{8, block, 0xFF}`. -/
theorem readHeader_blockStart (f : Flash) (o q : Nat) :
    readHeader (writeBytes f o (blockStartBytes q)) o = ⟨8, 1, 255⟩ := by
  have hsplit : writeBytes f o (blockStartBytes q) =
      writeBytes
        (writeBytes (writeBytes f o (headerBytes 8 1 255)) (o + 4) (le32 magic))
        (o + 8) (le32 q) := by
    unfold blockStartBytes
    rw [writeBytes_append, writeBytes_append]
    rfl
  rw [hsplit]
  rw [readHeader_congr (writeBytes f o (headerBytes 8 1 255))
    (fun a ha1 ha2 => by
      rw [writeBytes_lt (by omega), writeBytes_lt (by omega)])]
  rw [readHeader_writeBytes]

/-- Flash facts after initialising a fresh block and committing one entry into
it: bytes outside the block are untouched, the block parses back with the new
sequence, its contents form a two-entry chain (block record then the committed
entry), and the rest of the block reads erased. -/
theorem freshBlockInv (f : Flash) (bs ebn eseq kind : Nat) (info data : List Nat)
    (hbs16 : 16 ≤ bs) (hbs4 : bs % 4 = 0) (hbsU : bs < 65536)
    (hsz : info.length + data.length + 16 ≤ bs)
    (hks : ¬ kind % 256 = 255)
    (heseq : eseq < 4294967296) :
    (∀ a, a < ebn * bs ∨ ebn * bs + bs ≤ a →
      commitFlash (writeBytes (eraseRange f (ebn * bs) bs) (ebn * bs) (blockStartBytes eseq))
        (ebn * bs + 12) kind info data a = f a) ∧
    seqAt (commitFlash (writeBytes (eraseRange f (ebn * bs) bs) (ebn * bs)
        (blockStartBytes eseq)) (ebn * bs + 12) kind info data) bs ebn = eseq ∧
    Chain (commitFlash (writeBytes (eraseRange f (ebn * bs) bs) (ebn * bs)
        (blockStartBytes eseq)) (ebn * bs + 12) kind info data)
      (ebn * bs) (ebn * bs + 16 + alignup4 (info.length + data.length)) ∧
    (∀ a, ebn * bs + 16 + alignup4 (info.length + data.length) ≤ a → a < ebn * bs + bs →
      commitFlash (writeBytes (eraseRange f (ebn * bs) bs) (ebn * bs)
        (blockStartBytes eseq)) (ebn * bs + 12) kind info data a = 255) := by
  have hbsb : (blockStartBytes eseq).length = 12 := rfl
  have hal : info.length + data.length ≤ alignup4 (info.length + data.length) := alignup4_le _
  have halle : alignup4 (info.length + data.length) ≤ bs - 16 :=
    alignup4_le_of_le (by omega) (by omega)
  have hagree12 : ∀ a, ebn * bs ≤ a → a < ebn * bs + 12 →
      commitFlash (writeBytes (eraseRange f (ebn * bs) bs) (ebn * bs) (blockStartBytes eseq))
        (ebn * bs + 12) kind info data a =
      writeBytes (eraseRange f (ebn * bs) bs) (ebn * bs) (blockStartBytes eseq) a := by
    intro a h1 h2
    rw [commitFlash_out (by omega)]
  have hhdr1 : readHeader
      (commitFlash (writeBytes (eraseRange f (ebn * bs) bs) (ebn * bs) (blockStartBytes eseq))
        (ebn * bs + 12) kind info data) (ebn * bs) = ⟨8, 1, 255⟩ := by
    rw [readHeader_congr (writeBytes (eraseRange f (ebn * bs) bs) (ebn * bs)
        (blockStartBytes eseq)) (fun a h1 h2 => hagree12 a h1 (by omega))]
    exact readHeader_blockStart _ _ _
  have hhdr2 : readHeader
      (commitFlash (writeBytes (eraseRange f (ebn * bs) bs) (ebn * bs) (blockStartBytes eseq))
        (ebn * bs + 12) kind info data) (ebn * bs + 12) =
      ⟨(info.length + data.length) % 65536, kind % 256, 254⟩ :=
    commitFlash_header _ _ _ _ _
  have hsz' : (info.length + data.length) % 65536 = info.length + data.length :=
    Nat.mod_eq_of_lt (by omega)
  refine ⟨?_, ?_, ?_, ?_⟩
  · intro a ha
    rw [commitFlash_out (by omega)]
    rcases ha with ha | ha
    · rw [writeBytes_lt (by omega), eraseRange_out (by omega)]
    · rw [writeBytes_ge (by rw [hbsb]; omega), eraseRange_out (by omega)]
  · rw [seqAt_congr hagree12]
    exact seqAt_blockStart _ ebn eseq heseq
  · apply Chain.cons
    · rw [hhdr1]
      decide
    · have hstep1 : ebn * bs + alignup4 (4 + (readHeader
          (commitFlash (writeBytes (eraseRange f (ebn * bs) bs) (ebn * bs)
            (blockStartBytes eseq)) (ebn * bs + 12) kind info data) (ebn * bs)).size) =
          ebn * bs + 12 := by
        rw [hhdr1]
        rfl
      rw [hstep1]
      apply Chain.cons
      · rw [hhdr2]
        exact hks
      · have hstep2 : ebn * bs + 12 + alignup4 (4 + (readHeader
            (commitFlash (writeBytes (eraseRange f (ebn * bs) bs) (ebn * bs)
              (blockStartBytes eseq)) (ebn * bs + 12) kind info data) (ebn * bs + 12)).size) =
            ebn * bs + 16 + alignup4 (info.length + data.length) := by
          rw [hhdr2]
          dsimp only
          rw [hsz', alignup4_add4]
          omega
        rw [hstep2]
        exact Chain.nil _
  · intro a h1 h2
    rw [commitFlash_out (by omega)]
    rw [writeBytes_ge (by rw [hbsb]; omega), eraseRange_in (by omega) (by omega)]

/-- After the block-wrap and commit steps of writeEntry, run from any state
whose write offset sits on a block boundary within the ring and whose blocks
all carry sequences at most `endBlock.sequence`, the active-log invariant
holds for the incremented sequence. -/
theorem wrapCommitInv (s1 : Log) (bs tb n1 kind : Nat) (info data : List Nat)
    (hbs16 : 16 ≤ bs) (hbs4 : bs % 4 = 0) (hbsU : bs < 65536) (htb : 1 ≤ tb)
    (hbseq : s1.blockSize = bs) (htbeq : s1.totalBlocks = tb)
    (hoff : s1.writeOffset % bs = 0)
    (heseq1 : s1.endBlock.sequence + 1 ≤ n1) (hn1 : n1 < 4294967296)
    (hsz : info.length + data.length + 16 ≤ bs) (hks : ¬ kind % 256 = 255)
    (hprev : ∀ b, b < tb → seqAt s1.flash bs b < s1.endBlock.sequence + 1) :
    (stepCommit (stepWrap s1).1 kind info data).1.st = LState.ready ∧
    (stepCommit (stepWrap s1).1 kind info data).1.blockSize = bs ∧
    (stepCommit (stepWrap s1).1 kind info data).1.totalBlocks = tb ∧
    ActiveInv bs tb n1 (stepCommit (stepWrap s1).1 kind info data).1 := by
  obtain ⟨f, sb0, eb0, off0, bs0, tb0, st0⟩ := s1
  dsimp only at hbseq htbeq hoff heseq1 hprev
  have hbseq' : bs = bs0 := hbseq.symm
  have htbeq' : tb = tb0 := htbeq.symm
  subst hbseq'
  subst htbeq'
  have hbs0 : 0 < bs := by omega
  have hbt0 : 0 < bs * tb := Nat.mul_pos hbs0 (by omega)
  rw [stepWrap_yes (by dsimp only; exact hoff)]
  dsimp only
  unfold stepCommit
  dsimp only
  have hseqmod : (eb0.sequence + 1) % 4294967296 = eb0.sequence + 1 :=
    Nat.mod_eq_of_lt (by omega)
  rw [hseqmod]
  have hnbmod : off0 % (bs * tb) % bs = 0 := by
    rw [Nat.mod_mod_of_dvd _ (dvd_mul_right bs tb)]
    exact hoff
  obtain ⟨q, hq⟩ := Nat.dvd_of_mod_eq_zero hnbmod
  have hnblt : off0 % (bs * tb) < bs * tb := Nat.mod_lt _ hbt0
  have hqlt : q < tb := by
    by_contra hcon
    push_neg at hcon
    have : bs * tb ≤ bs * q := Nat.mul_le_mul_left bs hcon
    omega
  have hnbq : off0 % (bs * tb) = q * bs := by
    rw [hq, Nat.mul_comm]
  rw [hnbq]
  have hdivq : q * bs / bs = q := Nat.mul_div_cancel _ hbs0
  rw [hdivq]
  have hsz' : (info.length + data.length) % 65536 = info.length + data.length :=
    Nat.mod_eq_of_lt (by omega)
  rw [hsz']
  obtain ⟨hout, hseqat, hchain, htail⟩ :=
    freshBlockInv f bs q (eb0.sequence + 1) kind info data hbs16 hbs4 hbsU hsz hks (by omega)
  have hal : info.length + data.length ≤ alignup4 (info.length + data.length) := alignup4_le _
  have halle : alignup4 (info.length + data.length) ≤ bs - 16 :=
    alignup4_le_of_le (by omega) (by omega)
  have hmod4 : q * bs % 4 = 0 := by
    have hd : (4 : Nat) ∣ q * bs := Dvd.dvd.mul_left (Nat.dvd_of_mod_eq_zero hbs4) q
    omega
  have hal4 : alignup4 (info.length + data.length) % 4 = 0 := alignup4_mod4 _
  refine ⟨rfl, rfl, rfl, ?_⟩
  unfold ActiveInv
  dsimp only
  refine ⟨by omega, by omega, hqlt, by omega, by omega, by omega, hseqat, ?_, ?_, ?_⟩
  · intro b hb hbq
    have hagree : ∀ a, b * bs ≤ a → a < b * bs + 12 →
        commitFlash (writeBytes (eraseRange f (q * bs) bs) (q * bs)
          (blockStartBytes (eb0.sequence + 1))) (q * bs + 12) kind info data a = f a := by
      intro a h1 h2
      apply hout
      rcases Nat.lt_or_ge b q with hlt | hge
      · left
        have : (b + 1) * bs ≤ q * bs := Nat.mul_le_mul_right bs (by omega)
        have hbb : b * bs + bs = (b + 1) * bs := by ring
        omega
      · right
        have hgt : q < b := by omega
        have : (q + 1) * bs ≤ b * bs := Nat.mul_le_mul_right bs (by omega)
        have hbb : q * bs + bs = (q + 1) * bs := by ring
        omega
    rw [seqAt_congr hagree]
    exact hprev b hb
  · have he : q * bs + 12 + 4 + alignup4 (info.length + data.length) =
        q * bs + 16 + alignup4 (info.length + data.length) := by omega
    rw [he]
    exact hchain
  · intro a h1 h2
    apply htail a (by omega) h2

/-- One successful well-sized writeEntry preserves the run invariant,
incrementing the write budget. -/
theorem writeEntry_inv {bs tb n : Nat} {s : Log} (hInv : Inv bs tb n s)
    (hbs16 : 16 ≤ bs) (hbs4 : bs % 4 = 0) (hbsU : bs < 65536) (htb : 1 ≤ tb)
    (hn1 : n + 1 < 4294967296)
    (kind : Nat) (info data : List Nat)
    (hks : ¬ kind % 256 = 255) (hsz : info.length + data.length + 16 ≤ bs) :
    (Log.writeEntry s kind info data).ok = true ∧
    Inv bs tb (n + 1) (Log.writeEntry s kind info data).log := by
  obtain ⟨hst, hbseq, htbeq, hcase⟩ := hInv
  have hbs0 : 0 < bs := by omega
  obtain ⟨f, sb0, eb0, off0, bs0, tb0, st0⟩ := s
  dsimp only at hst hbseq htbeq
  have hbseq' : bs = bs0 := hbseq.symm
  have htbeq' : tb = tb0 := htbeq.symm
  subst hbseq'
  subst htbeq'
  subst hst
  rw [writeEntry_of_ready rfl]
  dsimp only
  refine ⟨rfl, ?_⟩
  rcases hcase with hemp | hact
  · obtain ⟨heb, hsb, hoff0, hflash⟩ := hemp
    dsimp only at heb hsb hoff0 hflash
    subst heb
    subst hoff0
    rw [stepPad_no (by dsimp only; rw [Nat.zero_mod]; omega)]
    obtain ⟨h1, h2, h3, h4⟩ :=
      wrapCommitInv ⟨f, sb0, ⟨0, 0⟩, 0, bs, tb, LState.ready⟩ bs tb (n + 1) kind info data
        hbs16 hbs4 hbsU htb rfl rfl (by dsimp only; exact Nat.zero_mod bs)
        (by dsimp only; omega) (by omega) hsz hks
        (by
          intro b hb
          dsimp only
          rw [seqAt_of_erased (fun a _ _ => hflash a)]
          omega)
    exact ⟨h1, h2, h3, Or.inr h4⟩
  · obtain ⟨hseq1, hseqn, hebn, hoffl, hoffu, hoff4, hseqat, hmax, hchain, htail⟩ := hact
    dsimp only at hseq1 hseqn hebn hoffl hoffu hoff4 hseqat hmax hchain htail
    have hebn4 : eb0.number * bs % 4 = 0 := by
      have hd : (4 : Nat) ∣ eb0.number * bs :=
        Dvd.dvd.mul_left (Nat.dvd_of_mod_eq_zero hbs4) eb0.number
      omega
    by_cases hwrap : off0 % bs = 0
    · rw [stepPad_no (by dsimp only; rw [hwrap]; omega)]
      obtain ⟨h1, h2, h3, h4⟩ :=
        wrapCommitInv ⟨f, sb0, eb0, off0, bs, tb, LState.ready⟩ bs tb (n + 1) kind info data
          hbs16 hbs4 hbsU htb rfl rfl (by dsimp only; exact hwrap)
          (by dsimp only; omega) (by omega) hsz hks
          (by
            intro b hb
            dsimp only
            by_cases hbe : b = eb0.number
            · rw [hbe, hseqat]
              omega
            · have := hmax b hb hbe
              omega)
      exact ⟨h1, h2, h3, Or.inr h4⟩
    · have hofflt : off0 < eb0.number * bs + bs := by
        rcases Nat.lt_or_ge off0 (eb0.number * bs + bs) with h | h
        · exact h
        · exfalso
          apply hwrap
          have he : off0 = (eb0.number + 1) * bs := by
            have : eb0.number * bs + bs = (eb0.number + 1) * bs := by ring
            omega
          rw [he, Nat.mul_mod_left]
      obtain ⟨hmod, hdiv⟩ := mod_of_interval bs eb0.number off0 (by omega) hofflt
      have hr12 : 12 ≤ off0 - eb0.number * bs := by omega
      have hrup : off0 + 4 ≤ eb0.number * bs + bs := by omega
      by_cases hpad : bs - off0 % bs < 4 + info.length + data.length
      · rw [stepPad_yes (by dsimp only; exact hpad)]
        dsimp only
        have hoffw : (off0 + (bs - off0 % bs)) % bs = 0 := by
          rw [add_mod_eq_mod_add_mod]
          have hlt : off0 % bs < bs := Nat.mod_lt _ hbs0
          have he : off0 % bs + (bs - off0 % bs) = bs := by omega
          rw [he, Nat.mod_self]
        have hagreepad : ∀ b, ∀ a, b * bs ≤ a → a < b * bs + 12 →
            writeBytes f off0 (headerBytes ((bs - off0 % bs + 4294967296 - 4) % 4294967296) 0 0)
              a = f a := by
          intro b a ha1 ha2
          rcases Nat.lt_or_ge b eb0.number with hlt | hge
          · apply writeBytes_lt
            have : (b + 1) * bs ≤ eb0.number * bs := Nat.mul_le_mul_right bs (by omega)
            have hbb : b * bs + bs = (b + 1) * bs := by ring
            omega
          · rcases Nat.eq_or_lt_of_le hge with he | hlt
            · apply writeBytes_lt
              rw [← he] at ha2
              omega
            · apply writeBytes_ge
              have : (eb0.number + 1) * bs ≤ b * bs := Nat.mul_le_mul_right bs (by omega)
              have hbb : eb0.number * bs + bs = (eb0.number + 1) * bs := by ring
              have hlen : (headerBytes ((bs - off0 % bs + 4294967296 - 4) % 4294967296) 0
                  0).length = 4 := rfl
              rw [hlen]
              omega
        obtain ⟨h1, h2, h3, h4⟩ :=
          wrapCommitInv ⟨writeBytes f off0
              (headerBytes ((bs - off0 % bs + 4294967296 - 4) % 4294967296) 0 0),
              sb0, eb0, off0 + (bs - off0 % bs), bs, tb, LState.ready⟩
            bs tb (n + 1) kind info data
            hbs16 hbs4 hbsU htb rfl rfl (by dsimp only; exact hoffw)
            (by dsimp only; omega) (by omega) hsz hks
            (by
              intro b hb
              dsimp only
              rw [seqAt_congr (hagreepad b)]
              by_cases hbe : b = eb0.number
              · rw [hbe, hseqat]
                omega
              · have := hmax b hb hbe
                omega)
        exact ⟨h1, h2, h3, Or.inr h4⟩
      · rw [stepPad_no (by dsimp only; exact hpad)]
        dsimp only
        rw [stepWrap_no (by dsimp only; exact hwrap)]
        dsimp only
        unfold stepCommit
        dsimp only
        have hsz' : (info.length + data.length) % 65536 = info.length + data.length :=
          Nat.mod_eq_of_lt (by omega)
        rw [hsz']
        have hfit : off0 % bs + (4 + info.length + data.length) ≤ bs := by
          have hlt : off0 % bs < bs := Nat.mod_lt _ hbs0
          omega
        have hal : info.length + data.length ≤ alignup4 (info.length + data.length) :=
          alignup4_le _
        have halmod : alignup4 (info.length + data.length) % 4 = 0 := alignup4_mod4 _
        have halfit : off0 + 4 + alignup4 (info.length + data.length) ≤
            eb0.number * bs + bs := by
          have h1 : alignup4 (4 + (info.length + data.length)) ≤ bs - off0 % bs :=
            alignup4_le_of_le (by omega) (by omega)
          have h2 : alignup4 (4 + (info.length + data.length)) =
              4 + alignup4 (info.length + data.length) := alignup4_add4 _
          omega
        have hagreec : ∀ b, ∀ a, b * bs ≤ a → a < b * bs + 12 →
            commitFlash f off0 kind info data a = f a := by
          intro b a ha1 ha2
          apply commitFlash_out
          rcases Nat.lt_or_ge b eb0.number with hlt | hge
          · left
            have : (b + 1) * bs ≤ eb0.number * bs := Nat.mul_le_mul_right bs (by omega)
            have hbb : b * bs + bs = (b + 1) * bs := by ring
            omega
          · rcases Nat.eq_or_lt_of_le hge with he | hlt
            · left
              rw [← he] at ha2
              omega
            · right
              have : (eb0.number + 1) * bs ≤ b * bs := Nat.mul_le_mul_right bs (by omega)
              have hbb : eb0.number * bs + bs = (eb0.number + 1) * bs := by ring
              omega
        refine ⟨rfl, rfl, rfl, Or.inr ?_⟩
        unfold ActiveInv
        dsimp only
        refine ⟨hseq1, by omega, hebn, by omega, halfit, by omega, ?_, ?_, ?_, ?_⟩
        · rw [seqAt_congr (hagreec eb0.number)]
          exact hseqat
        · intro b hb hbe
          rw [seqAt_congr (hagreec b)]
          exact hmax b hb hbe
        · have hchain' : Chain (commitFlash f off0 kind info data) (eb0.number * bs) off0 :=
            chain_congr hchain (fun a ha1 ha2 => (commitFlash_out (Or.inl ha2)).symm)
          apply chain_append hchain'
          have hhdr : readHeader (commitFlash f off0 kind info data) off0 =
              ⟨(info.length + data.length) % 65536, kind % 256, 254⟩ :=
            commitFlash_header _ _ _ _ _
          apply Chain.cons
          · rw [hhdr]
            exact hks
          · have hstep : off0 + alignup4 (4 + (readHeader
                (commitFlash f off0 kind info data) off0).size) =
                off0 + 4 + alignup4 (info.length + data.length) := by
              rw [hhdr]
              dsimp only
              rw [hsz', alignup4_add4]
              omega
            rw [hstep]
            exact Chain.nil _
        · intro a ha1 ha2
          rw [commitFlash_out (by omega)]
          exact htail a (by omega) ha2

/-- Log::init on a fully erased partition succeeds and establishes the run
invariant with an empty log. -/
theorem init_erased (pageSize psize : Nat)
    (hbs : ¬ pageSize * 4 % 65536 = 0) :
    (Log.init freshLog ⟨erasedFlash, pageSize, psize, true⟩).1 = true ∧
    Inv (pageSize * 4 % 65536) (psize / (pageSize * 4 % 65536) % 65536) 0
      (Log.init freshLog ⟨erasedFlash, pageSize, psize, true⟩).2 := by
  have hseq : ∀ b, seqAt erasedFlash (pageSize * 4 % 65536) b = 0 := fun b =>
    seqAt_of_erased (fun a _ _ => rfl)
  have hmax := scanMax_spec (fun b => seqAt erasedFlash (pageSize * 4 % 65536) b)
    (psize / (pageSize * 4 % 65536) % 65536)
  have hz : (scanMax (fun b => seqAt erasedFlash (pageSize * 4 % 65536) b)
      (psize / (pageSize * 4 % 65536) % 65536)).sequence = 0 := by
    by_contra hnz
    obtain ⟨_, h2, _⟩ := hmax.2.2 hnz
    rw [hseq] at h2
    omega
  have hn0 := hmax.2.1 hz
  have hebeq : scanMax (fun b => seqAt erasedFlash (pageSize * 4 % 65536) b)
      (psize / (pageSize * 4 % 65536) % 65536) = ⟨0, 0⟩ := by
    have he : scanMax (fun b => seqAt erasedFlash (pageSize * 4 % 65536) b)
        (psize / (pageSize * 4 % 65536) % 65536) =
        ⟨(scanMax (fun b => seqAt erasedFlash (pageSize * 4 % 65536) b)
            (psize / (pageSize * 4 % 65536) % 65536)).number,
          (scanMax (fun b => seqAt erasedFlash (pageSize * 4 % 65536) b)
            (psize / (pageSize * 4 % 65536) % 65536)).sequence⟩ := rfl
    rw [he, hn0, hz]
  unfold Log.init
  rw [if_neg (fun h => Bool.noConfusion h)]
  dsimp only
  rw [if_neg hbs, if_pos hz]
  dsimp only
  refine ⟨rfl, rfl, rfl, rfl, Or.inl ?_⟩
  unfold EmptyInv
  dsimp only
  exact ⟨hebeq, hebeq, rfl, fun a => rfl⟩

/-- Any sequence of well-sized writeEntry calls preserves the run invariant. -/
theorem runWrites_inv {bs tb : Nat} (hbs16 : 16 ≤ bs) (hbs4 : bs % 4 = 0) (hbsU : bs < 65536)
    (htb : 1 ≤ tb) :
    ∀ (reqs : List Req) (n : Nat) (s : Log), Inv bs tb n s →
      (∀ r ∈ reqs, WellSized bs r) → n + reqs.length < 4294967296 →
      Inv bs tb (n + reqs.length) (runWrites s reqs) := by
  intro reqs
  induction reqs with
  | nil =>
    intro n s h _ _
    simpa [runWrites] using h
  | cons r rs ih =>
    intro n s h hws hn
    have hr := hws r (List.mem_cons_self r rs)
    obtain ⟨hok, hinv'⟩ := writeEntry_inv h hbs16 hbs4 hbsU htb
      (by simp only [List.length_cons] at hn; omega) r.kind r.info r.data hr.2 hr.1
    have hrun : runWrites s (r :: rs) =
        runWrites (Log.writeEntry s r.kind r.info r.data).log rs := rfl
    rw [hrun]
    have h2 := ih (n + 1) _ hinv' (fun x hx => hws x (List.mem_cons_of_mem _ hx))
      (by simp only [List.length_cons] at hn; omega)
    have he : n + (r :: rs).length = n + 1 + rs.length := by
      simp only [List.length_cons]
      omega
    rw [he]
    exact h2

/-- From any state satisfying the run invariant, init on a fresh handle bound
to the same partition contents succeeds and recovers `endBlock` and
`writeOffset` exactly. -/
theorem inv_recovery {bs tb n : Nat} {s : Log} (hInv : Inv bs tb n s)
    (pageSize psize : Nat)
    (hbsdef : pageSize * 4 % 65536 = bs)
    (htbdef : psize / bs % 65536 = tb)
    (hbs16 : 16 ≤ bs) (hbs4 : bs % 4 = 0) (hbsU : bs < 65536) (htb : 1 ≤ tb) :
    (Log.init freshLog ⟨s.flash, pageSize, psize, true⟩).1 = true ∧
    (Log.init freshLog ⟨s.flash, pageSize, psize, true⟩).2.endBlock = s.endBlock ∧
    (Log.init freshLog ⟨s.flash, pageSize, psize, true⟩).2.writeOffset = s.writeOffset := by
  obtain ⟨hst, hbseq, htbeq, hcase⟩ := hInv
  have hbs0 : 0 < bs := by omega
  unfold Log.init
  rw [if_neg (fun h => Bool.noConfusion h)]
  dsimp only
  rw [hbsdef, if_neg (by omega), htbdef]
  rcases hcase with hemp | hact
  · obtain ⟨heb, hsb, hoff0, hflash⟩ := hemp
    have hz : (scanMax (fun b => seqAt s.flash bs b) tb).sequence = 0 := by
      have hseq : ∀ b, seqAt s.flash bs b = 0 := fun b =>
        seqAt_of_erased (fun a _ _ => hflash a)
      by_contra hnz
      obtain ⟨_, h2, _⟩ := (scanMax_spec (fun b => seqAt s.flash bs b) tb).2.2 hnz
      rw [hseq] at h2
      omega
    rw [if_pos hz]
    dsimp only
    refine ⟨rfl, ?_, hoff0.symm⟩
    have hn0 := (scanMax_spec (fun b => seqAt s.flash bs b) tb).2.1 hz
    rw [heb]
    have he : scanMax (fun b => seqAt s.flash bs b) tb =
        ⟨(scanMax (fun b => seqAt s.flash bs b) tb).number,
          (scanMax (fun b => seqAt s.flash bs b) tb).sequence⟩ := rfl
    rw [he, hn0, hz]
  · obtain ⟨hseq1, hseqn, hebn, hoffl, hoffu, hoff4, hseqat, hmax, hchain, htail⟩ := hact
    have hsm : scanMax (fun b => seqAt s.flash bs b) tb = s.endBlock := by
      have hspec := scanMax_spec (fun b => seqAt s.flash bs b) tb
      have hle := hspec.1 s.endBlock.number hebn
      rw [hseqat] at hle
      have hnz : ¬ (scanMax (fun b => seqAt s.flash bs b) tb).sequence = 0 := by omega
      obtain ⟨hnum, hval, hfirst⟩ := hspec.2.2 hnz
      by_cases hbe : (scanMax (fun b => seqAt s.flash bs b) tb).number = s.endBlock.number
      · have hse : (scanMax (fun b => seqAt s.flash bs b) tb).sequence =
            s.endBlock.sequence := by
          rw [hbe, hseqat] at hval
          omega
        have he : scanMax (fun b => seqAt s.flash bs b) tb =
            ⟨(scanMax (fun b => seqAt s.flash bs b) tb).number,
              (scanMax (fun b => seqAt s.flash bs b) tb).sequence⟩ := rfl
        rw [he, hbe, hse]
      · have hlt := hmax _ hnum hbe
        rw [hval] at hlt
        omega
    rw [hsm, if_neg (by omega)]
    dsimp only
    refine ⟨rfl, rfl, ?_⟩
    have hd1 : (4 : Nat) ∣ bs := Nat.dvd_of_mod_eq_zero hbs4
    have hd2 : (4 : Nat) ∣ s.endBlock.number * bs := hd1.mul_left _
    have hscan : scanBlock s.flash (s.endBlock.number * bs + bs) (s.endBlock.number * bs) =
        s.writeOffset := by
      apply scanBlock_of_chain hchain (by omega) (by omega)
      rcases Nat.lt_or_ge s.writeOffset (s.endBlock.number * bs + bs) with h | h
      · right
        apply htail
        · omega
        · omega
      · left
        omega
    rw [hscan, if_neg (by omega)]

/-- C1 (amended): for every sequence of successful well-sized writeEntry calls
starting from a fully erased partition, calling init on a fresh Log handle
bound to the same partition succeeds and recovers exactly the `endBlock` and
`writeOffset` the writing handle held after its last write.  The writing
handle's `startBlock` is NOT recovered (see the counterexample): the writer
leaves it at `{0, 0}` in a from-erased session, while init recomputes the
oldest still-contiguous block. -/
theorem c1_recovery_amended (pageSize psize : Nat) (reqs : List Req)
    (hbs16 : 16 ≤ pageSize * 4 % 65536)
    (htb : 1 ≤ psize / (pageSize * 4 % 65536) % 65536)
    (hws : ∀ r ∈ reqs, WellSized (pageSize * 4 % 65536) r)
    (hn : reqs.length < 4294967296) :
    (Log.init freshLog
        ⟨(runWrites (Log.init freshLog ⟨erasedFlash, pageSize, psize, true⟩).2 reqs).flash,
          pageSize, psize, true⟩).1 = true ∧
    (Log.init freshLog
        ⟨(runWrites (Log.init freshLog ⟨erasedFlash, pageSize, psize, true⟩).2 reqs).flash,
          pageSize, psize, true⟩).2.endBlock =
      (runWrites (Log.init freshLog ⟨erasedFlash, pageSize, psize, true⟩).2 reqs).endBlock ∧
    (Log.init freshLog
        ⟨(runWrites (Log.init freshLog ⟨erasedFlash, pageSize, psize, true⟩).2 reqs).flash,
          pageSize, psize, true⟩).2.writeOffset =
      (runWrites (Log.init freshLog ⟨erasedFlash, pageSize, psize, true⟩).2 reqs).writeOffset := by
  have hbs4 : pageSize * 4 % 65536 % 4 = 0 := by
    rw [Nat.mul_comm pageSize 4, show (65536 : Nat) = 4 * 16384 from rfl,
      Nat.mul_mod_mul_left]
    exact Nat.mul_mod_right 4 _
  have hbsU : pageSize * 4 % 65536 < 65536 := Nat.mod_lt _ (by omega)
  obtain ⟨hok0, hinv0⟩ := init_erased pageSize psize (by omega)
  have hinv := runWrites_inv hbs16 hbs4 hbsU htb reqs 0
    (Log.init freshLog ⟨erasedFlash, pageSize, psize, true⟩).2 hinv0 hws (by omega)
  exact inv_recovery hinv pageSize psize rfl rfl hbs16 hbs4 hbsU htb

/-- C1 witness: the amended recovery statement instantiated on the erased
two-block partition with one empty write. -/
theorem c1_witness :
    (Log.init freshLog
        ⟨(runWrites (Log.init freshLog ⟨erasedFlash, 4, 32, true⟩).2 [⟨2, [], []⟩]).flash,
          4, 32, true⟩).1 = true ∧
    (Log.init freshLog
        ⟨(runWrites (Log.init freshLog ⟨erasedFlash, 4, 32, true⟩).2 [⟨2, [], []⟩]).flash,
          4, 32, true⟩).2.endBlock =
      (runWrites (Log.init freshLog ⟨erasedFlash, 4, 32, true⟩).2 [⟨2, [], []⟩]).endBlock ∧
    (Log.init freshLog
        ⟨(runWrites (Log.init freshLog ⟨erasedFlash, 4, 32, true⟩).2 [⟨2, [], []⟩]).flash,
          4, 32, true⟩).2.writeOffset =
      (runWrites (Log.init freshLog ⟨erasedFlash, 4, 32, true⟩).2 [⟨2, [], []⟩]).writeOffset :=
  c1_recovery_amended 4 32 [⟨2, [], []⟩] (by decide) (by decide) (by decide) (by decide)

/-- C2 (amended): in every state reachable by a completed init on an erased
partition followed by successful well-sized writeEntry calls, `writeOffset`
is 4-byte aligned and lies inside the end block:
`endBlock.number * blockSize ≤ writeOffset ≤ (endBlock.number + 1) * blockSize`.
Equality `writeOffset / blockSize = endBlock.number` fails exactly when a
block has been filled to its end (see the counterexample), so the claimed
division identity is weakened to this interval. -/
theorem c2_invariant_amended (pageSize psize : Nat) (reqs : List Req)
    (hbs16 : 16 ≤ pageSize * 4 % 65536)
    (htb : 1 ≤ psize / (pageSize * 4 % 65536) % 65536)
    (hws : ∀ r ∈ reqs, WellSized (pageSize * 4 % 65536) r)
    (hn : reqs.length < 4294967296) :
    (runWrites (Log.init freshLog ⟨erasedFlash, pageSize, psize, true⟩).2
        reqs).writeOffset % 4 = 0 ∧
    (runWrites (Log.init freshLog ⟨erasedFlash, pageSize, psize, true⟩).2
        reqs).endBlock.number * (pageSize * 4 % 65536) ≤
      (runWrites (Log.init freshLog ⟨erasedFlash, pageSize, psize, true⟩).2
        reqs).writeOffset ∧
    (runWrites (Log.init freshLog ⟨erasedFlash, pageSize, psize, true⟩).2
        reqs).writeOffset ≤
      ((runWrites (Log.init freshLog ⟨erasedFlash, pageSize, psize, true⟩).2
        reqs).endBlock.number + 1) * (pageSize * 4 % 65536) := by
  have hbs4 : pageSize * 4 % 65536 % 4 = 0 := by
    rw [Nat.mul_comm pageSize 4, show (65536 : Nat) = 4 * 16384 from rfl,
      Nat.mul_mod_mul_left]
    exact Nat.mul_mod_right 4 _
  have hbsU : pageSize * 4 % 65536 < 65536 := Nat.mod_lt _ (by omega)
  obtain ⟨hok0, hinv0⟩ := init_erased pageSize psize (by omega)
  have hinv := runWrites_inv hbs16 hbs4 hbsU htb reqs 0
    (Log.init freshLog ⟨erasedFlash, pageSize, psize, true⟩).2 hinv0 hws (by omega)
  obtain ⟨hst, hbseq, htbeq, hcase⟩ := hinv
  rcases hcase with hemp | hact
  · obtain ⟨heb, hsb, hoff0, hflash⟩ := hemp
    rw [hoff0, heb]
    dsimp only
    refine ⟨rfl, by omega, by omega⟩
  · obtain ⟨hseq1, hseqn, hebn, hoffl, hoffu, hoff4, hseqat, hmax, hchain, htail⟩ := hact
    refine ⟨hoff4, by omega, ?_⟩
    have he : ((runWrites (Log.init freshLog ⟨erasedFlash, pageSize, psize, true⟩).2
        reqs).endBlock.number + 1) * (pageSize * 4 % 65536) =
        (runWrites (Log.init freshLog ⟨erasedFlash, pageSize, psize, true⟩).2
          reqs).endBlock.number * (pageSize * 4 % 65536) + (pageSize * 4 % 65536) := by
      ring
    omega

/-- Stepping the ring by k slots returns to the start slot only after a full
revolution. -/
theorem ring_step_eq {tb sbn k : Nat} (hs : sbn < tb) (hk1 : 1 ≤ k) (hk2 : k ≤ tb)
    (h : (sbn + k) % tb = sbn) : k = tb := by
  rcases Nat.lt_or_ge (sbn + k) tb with hlt | hge
  · rw [Nat.mod_eq_of_lt hlt] at h
    omega
  · have h2 : sbn + k - tb < tb := by omega
    have he : (sbn + k) % tb = sbn + k - tb := by
      rw [Nat.mod_eq_sub_mod hge, Nat.mod_eq_of_lt h2]
    omega

/-- The block-wrap and commit steps preserve the ring invariant when the write
offset sits exactly at the end of the current end block: the retire branch
fires exactly when the new end block lands on the start block, and the span
bound `endBlock.sequence - startBlock.sequence + 1 ≤ totalBlocks` is
maintained. -/
theorem ringWrapInv (s1 : Log) (bs tb kind : Nat) (info data : List Nat)
    (hbs16 : 16 ≤ bs) (hbs4 : bs % 4 = 0) (hbsU : bs < 65536)
    (hbseq : s1.blockSize = bs) (htbeq : s1.totalBlocks = tb)
    (hsb1 : 1 ≤ s1.startBlock.sequence)
    (hsble : s1.startBlock.sequence ≤ s1.endBlock.sequence)
    (hsbn : s1.startBlock.number < tb) (hebn : s1.endBlock.number < tb)
    (hcorr : s1.endBlock.number =
      (s1.startBlock.number + (s1.endBlock.sequence - s1.startBlock.sequence)) % tb)
    (hbound : s1.endBlock.sequence - s1.startBlock.sequence + 1 ≤ tb)
    (hoffeq : s1.writeOffset = (s1.endBlock.number + 1) * bs)
    (hseqlt : s1.endBlock.sequence + 1 < 4294967296)
    (hsz : info.length + data.length + 16 ≤ bs) :
    RingInv bs tb (stepCommit (stepWrap s1).1 kind info data).1 := by
  obtain ⟨f, sb0, eb0, off0, bs0, tb0, st0⟩ := s1
  dsimp only at hbseq htbeq hsb1 hsble hsbn hebn hcorr hbound hoffeq hseqlt
  have hbseq' : bs = bs0 := hbseq.symm
  have htbeq' : tb = tb0 := htbeq.symm
  subst hbseq'
  subst htbeq'
  have hbs0 : 0 < bs := by omega
  have htb0 : 0 < tb := by omega
  rw [stepWrap_yes (by dsimp only; rw [hoffeq]; exact Nat.mul_mod_left _ _)]
  dsimp only
  unfold stepCommit
  dsimp only
  rw [hoffeq]
  have hnb : (eb0.number + 1) * bs % (bs * tb) = (eb0.number + 1) % tb * bs := by
    rw [Nat.mul_comm bs tb, Nat.mul_mod_mul_right]
  rw [hnb]
  have hdiv : (eb0.number + 1) % tb * bs / bs = (eb0.number + 1) % tb :=
    Nat.mul_div_cancel _ hbs0
  rw [hdiv]
  have hmod1 : (eb0.sequence + 1) % 4294967296 = eb0.sequence + 1 :=
    Nat.mod_eq_of_lt (by omega)
  rw [hmod1]
  have hsz' : (info.length + data.length) % 65536 = info.length + data.length :=
    Nat.mod_eq_of_lt (by omega)
  rw [hsz']
  have hnewlt : (eb0.number + 1) % tb < tb := Nat.mod_lt _ htb0
  have hcorr1 : (eb0.number + 1) % tb =
      (sb0.number + (eb0.sequence - sb0.sequence + 1)) % tb := by
    rw [hcorr, Nat.mod_add_mod, Nat.add_assoc]
  have hal : info.length + data.length ≤ alignup4 (info.length + data.length) := alignup4_le _
  have halle : alignup4 (info.length + data.length) ≤ bs - 16 :=
    alignup4_le_of_le (by omega) (by omega)
  have hal4 : alignup4 (info.length + data.length) % 4 = 0 := alignup4_mod4 _
  have hmod4 : (eb0.number + 1) % tb * bs % 4 = 0 := by
    have hd : (4 : Nat) ∣ (eb0.number + 1) % tb * bs :=
      Dvd.dvd.mul_left (Nat.dvd_of_mod_eq_zero hbs4) _
    omega
  by_cases hret : (eb0.number + 1) % tb = sb0.number ∧ ¬ sb0.sequence = 0
  · rw [if_pos hret]
    have hD : eb0.sequence - sb0.sequence + 1 = tb := by
      apply ring_step_eq hsbn (by omega) (by omega)
      rw [← hcorr1]
      exact hret.1
    have hmod2 : (sb0.sequence + 1) % 4294967296 = sb0.sequence + 1 :=
      Nat.mod_eq_of_lt (by omega)
    rw [hmod2]
    unfold RingInv
    dsimp only
    refine ⟨rfl, rfl, rfl, by omega, by omega, Nat.mod_lt _ htb0, hnewlt, ?_, by omega,
      by omega, by omega, by omega⟩
    rw [show eb0.sequence + 1 - (sb0.sequence + 1) = eb0.sequence - sb0.sequence by omega,
      Nat.mod_add_mod,
      show sb0.number + 1 + (eb0.sequence - sb0.sequence) = sb0.number + tb by omega,
      Nat.add_mod_right, Nat.mod_eq_of_lt hsbn]
    exact hret.1
  · rw [if_neg hret]
    have hne : ¬ (eb0.number + 1) % tb = sb0.number := by
      intro hcon
      exact hret ⟨hcon, by omega⟩
    have hDlt : eb0.sequence - sb0.sequence + 1 < tb := by
      rcases Nat.lt_or_ge (eb0.sequence - sb0.sequence + 1) tb with h | h
      · exact h
      · exfalso
        apply hne
        rw [hcorr1, show eb0.sequence - sb0.sequence + 1 = tb by omega,
          Nat.add_mod_right, Nat.mod_eq_of_lt hsbn]
    unfold RingInv
    dsimp only
    refine ⟨rfl, rfl, rfl, by omega, by omega, hsbn, hnewlt, ?_, by omega, by omega,
      by omega, by omega⟩
    rw [show eb0.sequence + 1 - sb0.sequence = eb0.sequence - sb0.sequence + 1 by omega]
    exact hcorr1

/-- C6 (amended): the bound
`endBlock.sequence - startBlock.sequence + 1 ≤ totalBlocks` is an invariant of
well-sized writeEntry calls in states whose startBlock carries a non-zero
sequence (sessions whose init found existing blocks) satisfying the ring
correspondence; it is maintained at each block wrap by retiring the oldest
block exactly when the new end block lands on `startBlock.number`.  In a
session started from an erased partition `startBlock.sequence` remains 0, the
retire branch never fires, and the bound fails (see the counterexample). -/
theorem c6_ring_preservation (s : Log) (kind : Nat) (info data : List Nat) {bs tb : Nat}
    (hInv : RingInv bs tb s)
    (hbs16 : 16 ≤ bs) (hbs4 : bs % 4 = 0) (hbsU : bs < 65536)
    (hseqlt : s.endBlock.sequence + 1 < 4294967296)
    (hsz : info.length + data.length + 16 ≤ bs) :
    (Log.writeEntry s kind info data).ok = true ∧
    RingInv bs tb (Log.writeEntry s kind info data).log ∧
    (Log.writeEntry s kind info data).log.endBlock.sequence -
      (Log.writeEntry s kind info data).log.startBlock.sequence + 1 ≤ tb := by
  obtain ⟨hst, hbseq, htbeq, hsb1, hsble, hsbn, hebn, hcorr, hbound, hoffl, hoffu, hoff4⟩ :=
    hInv
  have hbs0 : 0 < bs := by omega
  have hres : RingInv bs tb (Log.writeEntry s kind info data).log := by
    obtain ⟨f, sb0, eb0, off0, bs0, tb0, st0⟩ := s
    dsimp only at hst hbseq htbeq hsb1 hsble hsbn hebn hcorr hbound hoffl hoffu hoff4 hseqlt
    have hbseq' : bs = bs0 := hbseq.symm
    have htbeq' : tb = tb0 := htbeq.symm
    subst hbseq'
    subst htbeq'
    subst hst
    rw [writeEntry_of_ready rfl]
    dsimp only
    have hebn4 : eb0.number * bs % 4 = 0 := by
      have hd : (4 : Nat) ∣ eb0.number * bs :=
        Dvd.dvd.mul_left (Nat.dvd_of_mod_eq_zero hbs4) eb0.number
      omega
    by_cases hpad : bs - off0 % bs < 4 + info.length + data.length
    · have hwrapn : ¬ off0 % bs = 0 := by
        intro hcon
        rw [hcon] at hpad
        omega
      have hofflt : off0 < eb0.number * bs + bs := by
        rcases Nat.lt_or_ge off0 (eb0.number * bs + bs) with h | h
        · exact h
        · exfalso
          apply hwrapn
          have he : off0 = (eb0.number + 1) * bs := by
            have hx : eb0.number * bs + bs = (eb0.number + 1) * bs := by ring
            omega
          rw [he, Nat.mul_mod_left]
      obtain ⟨hmod, hdiv⟩ := mod_of_interval bs eb0.number off0 (by omega) hofflt
      rw [stepPad_yes (by dsimp only; exact hpad)]
      dsimp only
      apply ringWrapInv
        ⟨writeBytes f off0 (headerBytes ((bs - off0 % bs + 4294967296 - 4) % 4294967296) 0 0),
          sb0, eb0, off0 + (bs - off0 % bs), bs, tb, LState.ready⟩
        bs tb kind info data hbs16 hbs4 hbsU rfl rfl hsb1 hsble hsbn hebn hcorr hbound
        (by
          dsimp only
          rw [hmod]
          have hx : eb0.number * bs + bs = (eb0.number + 1) * bs := by ring
          omega)
        (by dsimp only; omega) hsz
    · by_cases hwrap : off0 % bs = 0
      · rw [stepPad_no (by dsimp only; exact hpad)]
        have hoffeq : off0 = (eb0.number + 1) * bs := by
          rcases Nat.lt_or_ge off0 (eb0.number * bs + bs) with h | h
          · exfalso
            obtain ⟨hmod, _⟩ := mod_of_interval bs eb0.number off0 (by omega) h
            omega
          · have hx : eb0.number * bs + bs = (eb0.number + 1) * bs := by ring
            omega
        apply ringWrapInv ⟨f, sb0, eb0, off0, bs, tb, LState.ready⟩ bs tb kind info data
          hbs16 hbs4 hbsU rfl rfl hsb1 hsble hsbn hebn hcorr hbound
          (by dsimp only; exact hoffeq) (by dsimp only; omega) hsz
      · have hofflt : off0 < eb0.number * bs + bs := by
          rcases Nat.lt_or_ge off0 (eb0.number * bs + bs) with h | h
          · exact h
          · exfalso
            apply hwrap
            have he : off0 = (eb0.number + 1) * bs := by
              have hx : eb0.number * bs + bs = (eb0.number + 1) * bs := by ring
              omega
            rw [he, Nat.mul_mod_left]
        obtain ⟨hmod, hdiv⟩ := mod_of_interval bs eb0.number off0 (by omega) hofflt
        rw [stepPad_no (by dsimp only; exact hpad)]
        dsimp only
        rw [stepWrap_no (by dsimp only; exact hwrap)]
        dsimp only
        unfold stepCommit
        dsimp only
        have hsz' : (info.length + data.length) % 65536 = info.length + data.length :=
          Nat.mod_eq_of_lt (by omega)
        rw [hsz']
        have hal : info.length + data.length ≤ alignup4 (info.length + data.length) :=
          alignup4_le _
        have halmod : alignup4 (info.length + data.length) % 4 = 0 := alignup4_mod4 _
        have halfit : off0 + 4 + alignup4 (info.length + data.length) ≤
            eb0.number * bs + bs := by
          have h1 : alignup4 (4 + (info.length + data.length)) ≤ bs - off0 % bs :=
            alignup4_le_of_le (by omega) (by omega)
          have h2 : alignup4 (4 + (info.length + data.length)) =
              4 + alignup4 (info.length + data.length) := alignup4_add4 _
          omega
        unfold RingInv
        dsimp only
        exact ⟨rfl, rfl, rfl, hsb1, hsble, hsbn, hebn, hcorr, hbound, by omega, halfit,
          by omega⟩
  refine ⟨?_, hres, ?_⟩
  · rw [writeEntry_of_ready hst]
  · obtain ⟨_, _, _, _, _, _, _, _, hb, _, _, _⟩ := hres
    exact hb

/-- C6 witness: the ring-invariant preservation instantiated on a ready state
with a non-zero start sequence (one live block out of two). -/
theorem c6_witness :
    (Log.writeEntry c6Ex 2 [] []).ok = true ∧
    RingInv 16 2 (Log.writeEntry c6Ex 2 [] []).log ∧
    (Log.writeEntry c6Ex 2 [] []).log.endBlock.sequence -
      (Log.writeEntry c6Ex 2 [] []).log.startBlock.sequence + 1 ≤ 2 :=
  c6_ring_preservation c6Ex 2 [] []
    ⟨rfl, rfl, rfl, by decide, by decide, by decide, by decide, by decide, by decide,
      by decide, by decide, by decide⟩
    (by decide) (by decide) (by decide) (by decide) (by decide)

/-- C2 witness: the amended alignment-and-interval invariant instantiated on
the erased two-block partition with one empty write. -/
theorem c2_witness :
    (runWrites (Log.init freshLog ⟨erasedFlash, 4, 32, true⟩).2
        [⟨2, [], []⟩]).writeOffset % 4 = 0 ∧
    (runWrites (Log.init freshLog ⟨erasedFlash, 4, 32, true⟩).2
        [⟨2, [], []⟩]).endBlock.number * (4 * 4 % 65536) ≤
      (runWrites (Log.init freshLog ⟨erasedFlash, 4, 32, true⟩).2 [⟨2, [], []⟩]).writeOffset ∧
    (runWrites (Log.init freshLog ⟨erasedFlash, 4, 32, true⟩).2 [⟨2, [], []⟩]).writeOffset ≤
      ((runWrites (Log.init freshLog ⟨erasedFlash, 4, 32, true⟩).2
        [⟨2, [], []⟩]).endBlock.number + 1) * (4 * 4 % 65536) :=
  c2_invariant_amended 4 32 [⟨2, [], []⟩] (by decide) (by decide) (by decide) (by decide)

end DataLog
